import Mathlib

/-!
Verification of the color-thief median-cut quantizer (src/colorthief.py).

The Python source is shallowly embedded below.  Python machine integers are
modelled as Nat/Int (Python ints are unbounded, so this is exact).  The few
float computations of the source are exact on the values they are applied to
and are modelled by exact integer or rational arithmetic, as noted at each
site.  Python dicts keyed by cube index are modelled as insertion-ordered
association lists (only `get`, insertion and `len` are used by the source).
Exceptions are modelled with Except.  The stable Python `list.sort(key=...)`
is modelled by a stable insertion sort, which is extensionally the same
function.
-/

/-- Python `range(a, b)` (step 1): the list `[a, a+1, ..., b-1]`. -/
def pyRange (a b : Nat) : List Nat := List.range' a (b - a)

/-- An (r, g, b) pixel / color triple. -/
abbrev Pixel := Nat × Nat × Nat

/-- An (r, g, b, a) pixel as consumed by `ColorThief.get_palette`. -/
abbrev PixelA := Nat × Nat × Nat × Nat

/-- The histogram dict of `MMCQ.get_histo`: insertion-ordered list of
(cube index, count) pairs. -/
abbrev Histo := List (Nat × Nat)

/-- Errors raised by `MMCQ.quantize` (`raise Exception(...)` in the source).
`internalError` stands for the "vbox1 not defined" raise and for popping an
empty queue, which the code treats as impossible. -/
inductive QErr
  | emptyInput
  | invalidArgument
  | internalError
deriving DecidableEq, Repr

/-- MMCQ.SIGBITS. -/
def SIGBITS : Nat := 5

/-- MMCQ.RSHIFT = 8 - SIGBITS. -/
def RSHIFT : Nat := 8 - SIGBITS

/-- MMCQ.MAX_ITERATION. -/
def maxIter : Nat := 1000

/-- MMCQ.get_color_index: `(r << (2 * SIGBITS)) + (g << SIGBITS) + b`. -/
def getColorIndex (r g b : Nat) : Nat :=
  (r <<< (2 * SIGBITS)) + (g <<< SIGBITS) + b

/-- `histo.get(index, 0)`. -/
def histoGet (h : Histo) (idx : Nat) : Nat := (h.lookup idx).getD 0

/-- `histo[index] = histo.setdefault(index, 0) + 1`: increment in place,
or append a fresh bucket. -/
def histoIncr (h : Histo) (idx : Nat) : Histo :=
  match h with
  | [] => [(idx, 1)]
  | (k, c) :: t => if k = idx then (k, c + 1) :: t else (k, c) :: histoIncr t idx

/-- MMCQ.get_histo. -/
def getHisto (pixels : List Pixel) : Histo :=
  pixels.foldl
    (fun h p =>
      histoIncr h (getColorIndex (p.1 >>> RSHIFT) (p.2.1 >>> RSHIFT) (p.2.2 >>> RSHIFT)))
    []

/-- The VBox 3d color-space box.  The Python object also stores a reference
to the (shared, never mutated) histogram; here the histogram is passed to
the derived-statistic functions explicitly. -/
structure VBox where
  r1 : Nat
  r2 : Nat
  g1 : Nat
  g2 : Nat
  b1 : Nat
  b2 : Nat
deriving DecidableEq, Repr

/-- The three color axes (the one-letter `do_cut_color` strings). -/
inductive Axis
  | r
  | g
  | b
deriving DecidableEq, Repr

/-- Lower bound of a box on an axis (getattr with the dim1 attribute name). -/
def VBox.lo (v : VBox) : Axis → Nat
  | .r => v.r1
  | .g => v.g1
  | .b => v.b1

/-- Upper bound of a box on an axis (getattr with the dim2 attribute name). -/
def VBox.hi (v : VBox) : Axis → Nat
  | .r => v.r2
  | .g => v.g2
  | .b => v.b2

/-- setattr(vbox, dim2, d): replace the upper bound on an axis. -/
def VBox.setHi (v : VBox) : Axis → Nat → VBox
  | .r, d => { v with r2 := d }
  | .g, d => { v with g2 := d }
  | .b, d => { v with b2 := d }

/-- setattr(vbox, dim1, d): replace the lower bound on an axis. -/
def VBox.setLo (v : VBox) : Axis → Nat → VBox
  | .r, d => { v with r1 := d }
  | .g, d => { v with g1 := d }
  | .b, d => { v with b1 := d }

/-- VBox.volume: `(r2-r1+1) * (g2-g1+1) * (b2-b1+1)` over Python ints.
Computed in Int because split children can have `lo = hi + 1`. -/
def VBox.volume (v : VBox) : Int :=
  ((v.r2 : Int) - v.r1 + 1) * ((v.g2 : Int) - v.g1 + 1) * ((v.b2 : Int) - v.b1 + 1)

/-- VBox.count: total histogram population inside the box.  An empty Python
`range` corresponds to an empty `pyRange`. -/
def VBox.count (histo : Histo) (v : VBox) : Nat :=
  ((pyRange v.r1 (v.r2 + 1)).map (fun i =>
    ((pyRange v.g1 (v.g2 + 1)).map (fun j =>
      ((pyRange v.b1 (v.b2 + 1)).map (fun k =>
        histoGet histo (getColorIndex i j k))).sum)).sum)).sum

/-- VBox.avg.  The source accumulates, in one triple loop,
`ntot += hval` and `r_sum += hval * (i + 0.5) * mult` (and likewise g, b)
with `mult = 1 << (8 - SIGBITS) = 8`.  Each float term
`hval * (i + 0.5) * mult` equals the integer `hval * (2*i + 1) * (mult / 2)`
exactly, so the sums are modelled as exact Nat sums; `int(r_sum / ntot)`
is the integer floor, and the degenerate branch
`int(mult * (r1 + r2 + 1) / 2)` is exact since `mult` is even. -/
def VBox.avg (histo : Histo) (v : VBox) : Pixel :=
  let mult : Nat := 1 <<< (8 - SIGBITS)
  let ntot := v.count histo
  let rsum :=
    ((pyRange v.r1 (v.r2 + 1)).map (fun i =>
      ((pyRange v.g1 (v.g2 + 1)).map (fun j =>
        ((pyRange v.b1 (v.b2 + 1)).map (fun k =>
          histoGet histo (getColorIndex i j k) * ((2 * i + 1) * (mult / 2)))).sum)).sum)).sum
  let gsum :=
    ((pyRange v.r1 (v.r2 + 1)).map (fun i =>
      ((pyRange v.g1 (v.g2 + 1)).map (fun j =>
        ((pyRange v.b1 (v.b2 + 1)).map (fun k =>
          histoGet histo (getColorIndex i j k) * ((2 * j + 1) * (mult / 2)))).sum)).sum)).sum
  let bsum :=
    ((pyRange v.r1 (v.r2 + 1)).map (fun i =>
      ((pyRange v.g1 (v.g2 + 1)).map (fun j =>
        ((pyRange v.b1 (v.b2 + 1)).map (fun k =>
          histoGet histo (getColorIndex i j k) * ((2 * k + 1) * (mult / 2)))).sum)).sum)).sum
  if ntot ≠ 0 then
    (rsum / ntot, gsum / ntot, bsum / ntot)
  else
    ((mult * (v.r1 + v.r2 + 1)) / 2,
     (mult * (v.g1 + v.g2 + 1)) / 2,
     (mult * (v.b1 + v.b2 + 1)) / 2)

/-- VBox.contains on already-reduced coordinates. -/
def VBox.containsRGB (v : VBox) (rval gval bval : Nat) : Bool :=
  decide (v.r1 ≤ rval) && decide (rval ≤ v.r2) &&
  decide (v.g1 ≤ gval) && decide (gval ≤ v.g2) &&
  decide (v.b1 ≤ bval) && decide (bval ≤ v.b2)

/-- VBox.contains: reduce the pixel and range-check all three axes. -/
def VBox.contains (v : VBox) (p : Pixel) : Bool :=
  v.containsRGB (p.1 >>> RSHIFT) (p.2.1 >>> RSHIFT) (p.2.2 >>> RSHIFT)

/-- Running min/max state of `MMCQ.vbox_from_pixels`. -/
structure Bnds where
  rmin : Nat
  rmax : Nat
  gmin : Nat
  gmax : Nat
  bmin : Nat
  bmax : Nat

/-- One loop iteration of `MMCQ.vbox_from_pixels`. -/
def vboxStep (st : Bnds) (p : Pixel) : Bnds :=
  let rval := p.1 >>> RSHIFT
  let gval := p.2.1 >>> RSHIFT
  let bval := p.2.2 >>> RSHIFT
  ⟨min rval st.rmin, max rval st.rmax,
   min gval st.gmin, max gval st.gmax,
   min bval st.bmin, max bval st.bmax⟩

/-- MMCQ.vbox_from_pixels (the histogram argument is only stored by the
Python constructor and is passed separately here). -/
def vboxFromPixels (pixels : List Pixel) : VBox :=
  let st := pixels.foldl vboxStep ⟨1000000, 0, 1000000, 0, 1000000, 0⟩
  ⟨st.rmin, st.rmax, st.gmin, st.gmax, st.bmin, st.bmax⟩

/-- The per-slice population along the chosen cut axis: the inner double
loop of each branch of `median_cut_apply` that computes `sum_`. -/
def sliceSum (histo : Histo) (v : VBox) (ax : Axis) (i : Nat) : Nat :=
  match ax with
  | .r =>
    ((pyRange v.g1 (v.g2 + 1)).map (fun j =>
      ((pyRange v.b1 (v.b2 + 1)).map (fun k =>
        histoGet histo (getColorIndex i j k))).sum)).sum
  | .g =>
    ((pyRange v.r1 (v.r2 + 1)).map (fun j =>
      ((pyRange v.b1 (v.b2 + 1)).map (fun k =>
        histoGet histo (getColorIndex j i k))).sum)).sum
  | .b =>
    ((pyRange v.r1 (v.r2 + 1)).map (fun j =>
      ((pyRange v.g1 (v.g2 + 1)).map (fun k =>
        histoGet histo (getColorIndex j k i))).sum)).sum

/-- `partialsum[i]`: cumulative slice population from the low bound of the
cut axis up to and including slice i. -/
def psum (histo : Histo) (v : VBox) (ax : Axis) (i : Nat) : Nat :=
  ((pyRange (v.lo ax) (i + 1)).map (sliceSum histo v ax)).sum

/-- `total`: the accumulated population over the whole axis range. -/
def totalSum (histo : Histo) (v : VBox) (ax : Axis) : Nat :=
  psum histo v ax (v.hi ax)

/-- `partialsum.get(i, False)` with falsy-ness read as 0: the dict holds
keys exactly in [lo, hi], so out-of-range reads are falsy. -/
def psumGet (histo : Histo) (v : VBox) (ax : Axis) (i : Nat) : Nat :=
  if v.lo ax ≤ i ∧ i ≤ v.hi ax then psum histo v ax i else 0

/-- `lookaheadsum.get(i)` (`total - d` for in-range keys, falsy None read
as 0 out of range). -/
def lookGet (histo : Histo) (v : VBox) (ax : Axis) (i : Nat) : Nat :=
  if v.lo ax ≤ i ∧ i ≤ v.hi ax then totalSum histo v ax - psum histo v ax i else 0

/-- The split-axis choice of `median_cut_apply`:
`maxw = max([rw, gw, bw])`, then the `if maxw == rw / elif maxw == gw / else`
chain. -/
def cutAxis (v : VBox) : Axis :=
  let rw : Int := (v.r2 : Int) - v.r1 + 1
  let gw : Int := (v.g2 : Int) - v.g1 + 1
  let bw : Int := (v.b2 : Int) - v.b1 + 1
  let maxw := max (max rw gw) bw
  if maxw = rw then .r else if maxw = gw then .g else .b

/-- The cut-plane scan: the first slice i in [lo, hi] with
`partialsum[i] > total / 2` (Python float halving of an int; for integers
`p > t / 2` iff `t < 2 * p`, exactly).  Returns none when no slice
qualifies, in which case the source returns `(None, None)`. -/
def scanIdx (histo : Histo) (v : VBox) (ax : Axis) : Option Nat :=
  (pyRange (v.lo ax) (v.hi ax + 1)).find?
    (fun i => decide (totalSum histo v ax < 2 * psum histo v ax i))

/-- The backward adjustment loop
`while not count2 and partialsum.get(d2-1, False): d2 -= 1; count2 = lookaheadsum.get(d2)`.
Structural recursion on d2; at d2 = 0 the dict read at -1 is falsy and the
loop stops. -/
def bwdAdjust (ps look : Nat → Nat) : Nat → Nat → Nat
  | _, 0 => 0
  | c2, d + 1 => if c2 = 0 ∧ ps d ≠ 0 then bwdAdjust ps look (look d) d else d + 1

/-- The initial cut candidate of `median_cut_apply` after the scan found
slice i: `left = i - dim1_val`, `right = dim2_val - i`, then
`d2 = min(dim2_val - 1, int(i + right / 2))` when `left <= right`, else
`d2 = max(dim1_val, int(i - 1 - left / 2))`.  The Python floats here are
exact half-integers: `int(i + right / 2)` is `i + right / 2` by integer
division (truncation is floor on nonnegative values), and
`int(i - 1 - left / 2)` truncates `(2*i - 2 - left) / 2` toward zero,
which is `Int.tdiv`.  The value can be `lo - 1` (only when `lo = 0`,
giving -1, as in Python), so it is an Int. -/
def cutCandidate (v : VBox) (ax : Axis) (i : Nat) : Int :=
  let d1 := v.lo ax
  let dv2 := v.hi ax
  let left := i - d1
  let right := dv2 - i
  if left ≤ right then min ((dv2 : Int) - 1) ((i + right / 2 : Nat) : Int)
  else max (d1 : Int) (Int.tdiv (2 * (i : Int) - 2 - (left : Int)) 2)

/-- The forward skip `while not partialsum.get(d2, False): d2 += 1`.
It starts at the candidate, which may sit below the low bound of the axis
(where every dict read is falsy), and stops at the first in-range slice
with nonzero partial sum; it terminates because `partialsum[hi] = total > 0`
whenever the box is populated, which holds on every path that reaches it.
It is modelled by the equivalent bounded search with default hi. -/
def cutFwd (histo : Histo) (v : VBox) (ax : Axis) (i : Nat) : Nat :=
  let start : Nat := (max (cutCandidate v ax i) (v.lo ax : Int)).toNat
  ((pyRange start (v.hi ax + 1)).find?
    (fun d => decide (psumGet histo v ax d ≠ 0))).getD (v.hi ax)

/-- The final cut plane: forward skip followed by the backward adjustment
(seeded with `count2 = lookaheadsum.get(d2)`). -/
def adjustCut (histo : Histo) (v : VBox) (ax : Axis) (i : Nat) : Nat :=
  bwdAdjust (psumGet histo v ax) (lookGet histo v ax)
    (lookGet histo v ax (cutFwd histo v ax i)) (cutFwd histo v ax i)

/-- MMCQ.median_cut_apply.  `vbox.copy` shares all range fields (and the
histogram reference), so the copies are the same value here. -/
def medianCutApply (histo : Histo) (v : VBox) : Option VBox × Option VBox :=
  if v.count histo = 0 then (none, none)
  else if v.count histo = 1 then (some v, none)
  else
    let ax := cutAxis v
    match scanIdx histo v ax with
    | none => (none, none)
    | some i =>
      let d2f := adjustCut histo v ax i
      (some (v.setHi ax d2f), some (v.setLo ax (d2f + 1)))

/-- The PQueue container: `contents` plus the `_sorted` staleness flag.
The Python object also stores the `sort_key` closure; it is passed to the
reading operations explicitly here (each queue is always used with the one
key it was created with). -/
structure PQueue (α : Type) where
  contents : List α
  isSorted : Bool
deriving DecidableEq, Repr

/-- Stable insertion of an element into an ascending-by-key list: the new
element goes before the first element of larger-or-equal key is wrong for
stability, so it goes before the first element of strictly-larger-or-equal
key position that keeps earlier-inserted equal keys first. -/
def insertKey {α : Type} (key : α → Int) (a : α) : List α → List α
  | [] => [a]
  | b :: t => if key a ≤ key b then a :: b :: t else b :: insertKey key a t

/-- Stable ascending sort by key: extensionally the Python
`list.sort(key=...)` (both are stable ascending sorts, hence pointwise
equal as functions of the input list). -/
def stableSort {α : Type} (key : α → Int) (l : List α) : List α :=
  l.foldr (insertKey key) []

/-- PQueue.push: append and mark stale. -/
def PQueue.push {α : Type} (q : PQueue α) (o : α) : PQueue α :=
  ⟨q.contents ++ [o], false⟩

/-- PQueue.sort guarded by the `_sorted` flag (the sort that `pop`/`peek`
perform lazily). -/
def PQueue.sortQ {α : Type} (key : α → Int) (q : PQueue α) : PQueue α :=
  if q.isSorted then q else ⟨stableSort key q.contents, true⟩

/-- PQueue.pop: sort if stale, then remove and return the last (maximum)
element.  Popping an empty queue is an IndexError in Python, surfaced as
`none` here. -/
def PQueue.pop {α : Type} (key : α → Int) (q : PQueue α) : Option α × PQueue α :=
  let q1 := q.sortQ key
  (q1.contents.getLast?, ⟨q1.contents.dropLast, q1.isSorted⟩)

/-- PQueue.size. -/
def PQueue.size {α : Type} (q : PQueue α) : Nat := q.contents.length

/-- The phase-1 queue key `lambda x: x.count`. -/
def keyCount (histo : Histo) (v : VBox) : Int := (v.count histo : Int)

/-- The phase-2 queue key `lambda x: x.count * x.volume`. -/
def keyCountVol (histo : Histo) (v : VBox) : Int := (v.count histo : Int) * v.volume

/-- The inner `iter_` loop of MMCQ.quantize.  The loop runs while
`n_iter < MAX_ITERATION`, modelled by the fuel argument.  The target is a
number (0.75 * max_color, a float, in phase 1; an int in phase 2); both
exit comparisons `n_color >= target` are encoded exactly as
`4 * n_color >= tgt4` with `tgt4 = 4 * target`. -/
def iterLoop (key : VBox → Int) (histo : Histo) (tgt4 : Int) :
    Nat → PQueue VBox → Nat → Except QErr (PQueue VBox)
  | 0, q, _ => .ok q
  | fuel + 1, q, nColor =>
    match q.pop key with
    | (none, _) => .error .internalError
    | (some v, q1) =>
      if v.count histo = 0 then
        -- just put it back and count the iteration
        iterLoop key histo tgt4 fuel (q1.push v) nColor
      else
        match medianCutApply histo v with
        | (none, _) => .error .internalError
        | (some v1, ob) =>
          match ob with
          | some v2 =>
            if tgt4 ≤ 4 * ((nColor + 1 : Nat) : Int) then .ok ((q1.push v1).push v2)
            else iterLoop key histo tgt4 fuel ((q1.push v1).push v2) (nColor + 1)
          | none =>
            if tgt4 ≤ 4 * ((nColor : Nat) : Int) then .ok (q1.push v1)
            else iterLoop key histo tgt4 fuel (q1.push v1) nColor

/-- The `while pq.size(): pq2.push(pq.pop())` transfer between the two
phases; fuel is the source size. -/
def transferLoop (key : VBox → Int) : Nat → PQueue VBox → PQueue VBox → PQueue VBox
  | 0, _, dst => dst
  | fuel + 1, src, dst =>
    if src.contents.isEmpty then dst
    else
      match src.pop key with
      | (none, _) => dst
      | (some v, src1) => transferLoop key fuel src1 (dst.push v)

/-- The CMap color map: a PQueue of dict entries pairing each vbox with
its average color, keyed by `count * volume`. -/
structure CMap where
  vboxes : PQueue (VBox × Pixel)
deriving DecidableEq, Repr

/-- A fresh CMap (PQueue starts unsorted). -/
def CMap.init : CMap := ⟨⟨[], false⟩⟩

/-- The sort key of the CMap queue: count times volume of the stored vbox. -/
def cmapKey (histo : Histo) (e : VBox × Pixel) : Int :=
  keyCountVol histo e.1

/-- CMap.push: store the box with its average color. -/
def CMap.push (histo : Histo) (cm : CMap) (v : VBox) : CMap :=
  ⟨cm.vboxes.push (v, v.avg histo)⟩

/-- CMap.palette: map over the queue contents in their current order
(no sort happens here). -/
def CMap.palette (cm : CMap) : List Pixel :=
  cm.vboxes.contents.map (fun e => e.2)

/-- CMap.size. -/
def CMap.size (cm : CMap) : Nat := cm.vboxes.contents.length

/-- CMap.palette_distribution: each color with `count / float(total)`.
The float fraction is modelled as the exact rational. -/
def CMap.paletteDistribution (histo : Histo) (cm : CMap) : List (Pixel × ℚ) :=
  let total : Nat := (cm.vboxes.contents.map (fun e => e.1.count histo)).sum
  cm.vboxes.contents.map (fun e => (e.2, (e.1.count histo : ℚ) / (total : ℚ)))

/-- Squared Euclidean RGB distance.  The source compares
`math.sqrt(...) < math.sqrt(...)`; sqrt is strictly monotone on
nonnegative reals, so comparing the exact squared distances is the same
comparison. -/
def sqDist (c p : Pixel) : Int :=
  ((c.1 : Int) - p.1) * ((c.1 : Int) - p.1) +
  ((c.2.1 : Int) - p.2.1) * ((c.2.1 : Int) - p.2.1) +
  ((c.2.2 : Int) - p.2.2) * ((c.2.2 : Int) - p.2.2)

/-- The scan inside CMap.nearest over the (sorted) contents: keep the first
strictly-smaller distance, ties keep the earlier entry. -/
def nearestIn (l : List (VBox × Pixel)) (c : Pixel) : Option Pixel :=
  (l.foldl
    (fun (best : Option (Int × Pixel)) e =>
      let d2 := sqDist c e.2
      match best with
      | none => some (d2, e.2)
      | some (d1, pc) => if d2 < d1 then some (d2, e.2) else some (d1, pc))
    none).map (fun b => b.2)

/-- CMap.nearest.  Reading `peek(i)` for i = 0, 1, ... first materialises
the lazy sort (ascending by count * volume) and then scans in that order;
on an empty map the loop body never runs and nothing is sorted. -/
def CMap.nearest (histo : Histo) (cm : CMap) (c : Pixel) : Option Pixel × CMap :=
  if cm.vboxes.contents.isEmpty then (none, cm)
  else
    (nearestIn (cm.vboxes.sortQ (cmapKey histo)).contents c,
     ⟨cm.vboxes.sortQ (cmapKey histo)⟩)

/-- CMap.map: scan the (lazily sorted) entries in ascending peek order for
the first box containing the color, else fall back to CMap.nearest. -/
def CMap.map (histo : Histo) (cm : CMap) (c : Pixel) : Option Pixel × CMap :=
  if cm.vboxes.contents.isEmpty then CMap.nearest histo cm c
  else
    match (cm.vboxes.sortQ (cmapKey histo)).contents.find?
        (fun e => e.1.contains c) with
    | some e => (some e.2, ⟨cm.vboxes.sortQ (cmapKey histo)⟩)
    | none => (nearestIn (cm.vboxes.sortQ (cmapKey histo)).contents c,
               ⟨cm.vboxes.sortQ (cmapKey histo)⟩)

/-- The `while pq2.size(): cmap.push(pq2.pop())` drain at the end of
quantize; fuel is the source size. -/
def drainLoop (histo : Histo) : Nat → PQueue VBox → CMap → CMap
  | 0, _, cm => cm
  | fuel + 1, src, cm =>
    if src.contents.isEmpty then cm
    else
      match src.pop (keyCountVol histo) with
      | (none, _) => cm
      | (some v, src1) => drainLoop histo fuel src1 (cm.push histo v)

/-- MMCQ.quantize.  The no-op `if len(histo) <= max_color: pass` of the
source is omitted.  Phase 1 targets `FRACT_BY_POPULATIONS * max_color
= 0.75 * max_color` (compare via `4 * n_color >= 3 * max_color`, exact);
phase 2 targets `max_color - pq2.size()` (compare via the same scaling
by 4). -/
def quantize (pixels : List Pixel) (maxColor : Nat) : Except QErr CMap :=
  if pixels.isEmpty then .error .emptyInput
  else if maxColor < 2 ∨ 256 < maxColor then .error .invalidArgument
  else
    let histo := getHisto pixels
    let vbox := vboxFromPixels pixels
    let pq : PQueue VBox := PQueue.push ⟨[], false⟩ vbox
    do
      let pq ← iterLoop (keyCount histo) histo (3 * (maxColor : Int)) maxIter pq 1
      let pq2 := transferLoop (keyCount histo) pq.size pq ⟨[], false⟩
      let pq2 ← iterLoop (keyCountVol histo) histo
        (4 * ((maxColor : Int) - (pq2.size : Int))) maxIter pq2 1
      .ok (drainLoop histo pq2.size pq2 CMap.init)

/-- ColorThief.white_threshold. -/
def whiteThreshold : Nat := 0xF0

/-- ColorThief.black_threshold. -/
def blackThreshold : Nat := 0x0F

/-- ColorThief.alpha_threshold. -/
def alphaThreshold : Nat := 100

/-- ColorThief.is_white. -/
def isWhite (r g b : Nat) : Bool :=
  decide (whiteThreshold < r ∧ whiteThreshold < g ∧ whiteThreshold < b)

/-- ColorThief.is_black. -/
def isBlack (r g b : Nat) : Bool :=
  decide (r < blackThreshold ∧ g < blackThreshold ∧ b < blackThreshold)

/-- The white/black filter cascade of ColorThief.get_palette (the body
guarded by the alpha test). -/
def keepPixel (noWhite noBlack : Bool) (r g b : Nat) : Bool :=
  let w := isWhite r g b
  let blk := isBlack r g b
  if noWhite && noBlack && !(w || blk) then true
  else if noBlack && !blk then true
  else if noWhite && !w then true
  else if !noWhite && !noBlack then true
  else false

/-- The valid-pixel collection loop of ColorThief.get_palette:
`for i in range(0, pixel_count, quality)` keeps every pixel at a stride-
multiple index whose alpha passes the threshold and which survives the
white/black filter.  Meaningful for quality >= 1 (Python raises on
stride 0). -/
def validPixels (pixels : List PixelA) (quality : Nat) (noWhite noBlack : Bool) :
    List Pixel :=
  ((List.range ((pixels.length + quality - 1) / quality)).map (fun t => t * quality)).foldl
    (fun acc i =>
      match pixels[i]? with
      | none => acc
      | some (r, g, b, a) =>
        if alphaThreshold ≤ a then
          if keepPixel noWhite noBlack r g b then acc ++ [(r, g, b)] else acc
        else acc)
    []

/-- ColorThief.get_palette (dist=False), parametric in the quantizer so
that non-invocation of the quantizer on fully-filtered input is expressible:
if no valid pixel survives, `[self.default_color]` is returned before the
quantizer is ever called. -/
def getPaletteWith (quantizer : List Pixel → Nat → Except QErr CMap)
    (pixels : List PixelA) (colorCount quality : Nat) (noWhite noBlack : Bool)
    (defaultColor : Option Pixel) : Except QErr (List (Option Pixel)) :=
  let vp := validPixels pixels quality noWhite noBlack
  if vp.isEmpty then .ok [defaultColor]
  else (quantizer vp colorCount).map (fun cm => cm.palette.map some)

/-- ColorThief.get_palette with the real quantizer. -/
def getPalette (pixels : List PixelA) (colorCount quality : Nat)
    (noWhite noBlack : Bool) (defaultColor : Option Pixel) :
    Except QErr (List (Option Pixel)) :=
  getPaletteWith quantize pixels colorCount quality noWhite noBlack defaultColor

/-- Extract the color map of a successful quantization (used to state
closed concrete-run facts). -/
def cmOf (e : Except QErr CMap) : CMap :=
  match e with
  | .ok cm => cm
  | .error _ => CMap.init

/-- The 100-pixel single-color input of the specified scenario. -/
def pix100 : List Pixel := List.replicate 100 (255, 0, 0)

/-- A 4-pixel input whose reduced colors occupy buckets 0, 1 and 31 on the
red axis. -/
def pix4 : List Pixel := [(0, 0, 0), (8, 0, 0), (248, 0, 0), (255, 0, 0)]



/-- All channels of an input pixel are 8-bit values (the data-model
precondition on pixels). -/
def validPix (p : Pixel) : Prop := p.1 ≤ 255 ∧ p.2.1 ≤ 255 ∧ p.2.2 ≤ 255

/-- Bounds invariant actually maintained by the splitter: lower bounds stay
within [0, 2^SIGBITS] = [0, 32], upper bounds within [0, 2^SIGBITS - 1]
= [0, 31], and each lower bound exceeds its upper bound by at most one
(the degenerate empty child of a cut at the very top of an axis). -/
def VBoxInv (v : VBox) : Prop :=
  v.r1 ≤ v.r2 + 1 ∧ v.r1 ≤ 32 ∧ v.r2 ≤ 31 ∧
  v.g1 ≤ v.g2 + 1 ∧ v.g1 ≤ 32 ∧ v.g2 ≤ 31 ∧
  v.b1 ≤ v.b2 + 1 ∧ v.b1 ≤ 32 ∧ v.b2 ≤ 31

/-- The regions reachable during a quantize call over a fixed histogram:
the initial region, and every child handed back by `median_cut_apply`
applied to a reachable region. -/
inductive Reachable (histo : Histo) (v0 : VBox) : VBox → Prop
  | init : Reachable histo v0 v0
  | fst {v v1 : VBox} {ob : Option VBox} :
      Reachable histo v0 v → medianCutApply histo v = (some v1, ob) →
      Reachable histo v0 v1
  | snd {v v2 : VBox} {oa : Option VBox} :
      Reachable histo v0 v → medianCutApply histo v = (oa, some v2) →
      Reachable histo v0 v2

/-! ## Generic list and queue lemmas -/

theorem mem_pyRange {a b x : Nat} : x ∈ pyRange a b ↔ a ≤ x ∧ x < b := by
  unfold pyRange
  rw [List.mem_range'_1]
  omega

theorem pyRange_eq_nil {a b : Nat} (h : b ≤ a) : pyRange a b = [] := by
  unfold pyRange
  have : b - a = 0 := by omega
  rw [this]
  rfl

theorem sum_map_zero {α : Type} (l : List α) : (l.map (fun _ => (0 : Nat))).sum = 0 := by
  induction l with
  | nil => rfl
  | cons a t ih => simp [ih]

theorem sum_map_add {α : Type} (l : List α) (f g : α → Nat) :
    (l.map (fun x => f x + g x)).sum = (l.map f).sum + (l.map g).sum := by
  induction l with
  | nil => rfl
  | cons a t ih =>
    simp only [List.map_cons, List.sum_cons, ih]
    omega

theorem sum_map_swap (l1 l2 : List Nat) (f : Nat → Nat → Nat) :
    (l1.map (fun i => (l2.map (fun j => f i j)).sum)).sum =
      (l2.map (fun j => (l1.map (fun i => f i j)).sum)).sum := by
  induction l1 with
  | nil => simp [sum_map_zero]
  | cons a t ih =>
    simp only [List.map_cons, List.sum_cons, ih]
    rw [← sum_map_add]

/-- A sum of naturals over a list is zero iff every term is zero. -/
theorem sum_map_eq_zero_iff {α : Type} (l : List α) (f : α → Nat) :
    (l.map f).sum = 0 ↔ ∀ x ∈ l, f x = 0 := by
  induction l with
  | nil => simp
  | cons a t ih =>
    simp only [List.map_cons, List.sum_cons, List.mem_cons, Nat.add_eq_zero, ih]
    constructor
    · rintro ⟨h1, h2⟩ x (rfl | hx)
      · exact h1
      · exact h2 x hx
    · intro h
      exact ⟨h a (Or.inl rfl), fun x hx => h x (Or.inr hx)⟩

theorem insertKey_perm {α : Type} (key : α → Int) (a : α) (l : List α) :
    (insertKey key a l).Perm (a :: l) := by
  induction l with
  | nil => simp [insertKey]
  | cons b t ih =>
    unfold insertKey
    by_cases h : key a ≤ key b
    · simp [h]
    · simp only [h, if_false]
      exact (ih.cons b).trans (List.Perm.swap a b t)

theorem stableSort_perm {α : Type} (key : α → Int) (l : List α) :
    (stableSort key l).Perm l := by
  induction l with
  | nil => simp [stableSort]
  | cons a t ih =>
    unfold stableSort at ih ⊢
    simp only [List.foldr_cons]
    exact (insertKey_perm key a _).trans (ih.cons a)

theorem stableSort_length {α : Type} (key : α → Int) (l : List α) :
    (stableSort key l).length = l.length :=
  (stableSort_perm key l).length_eq

theorem stableSort_countP {α : Type} (key : α → Int) (p : α → Bool) (l : List α) :
    (stableSort key l).countP p = l.countP p :=
  (stableSort_perm key l).countP_eq p

theorem insertKey_pairwise {α : Type} (key : α → Int) (a : α) (l : List α)
    (h : l.Pairwise (fun x y => key x ≤ key y)) :
    (insertKey key a l).Pairwise (fun x y => key x ≤ key y) := by
  induction l with
  | nil => simp [insertKey]
  | cons b t ih =>
    unfold insertKey
    rcases List.pairwise_cons.mp h with ⟨hb, ht⟩
    by_cases hab : key a ≤ key b
    · simp only [hab, if_true]
      refine List.pairwise_cons.mpr ⟨?_, h⟩
      intro x hx
      rcases List.mem_cons.mp hx with rfl | hx
      · exact hab
      · exact le_trans hab (hb x hx)
    · simp only [hab, if_false]
      refine List.pairwise_cons.mpr ⟨?_, ih ht⟩
      intro x hx
      rcases List.mem_cons.mp (((insertKey_perm key a t).mem_iff).mp hx) with rfl | hx
      · omega
      · exact hb x hx

theorem stableSort_pairwise {α : Type} (key : α → Int) (l : List α) :
    (stableSort key l).Pairwise (fun x y => key x ≤ key y) := by
  induction l with
  | nil => simp [stableSort]
  | cons a t ih =>
    unfold stableSort at ih ⊢
    simp only [List.foldr_cons]
    exact insertKey_pairwise key a _ ih

/-- Sorting an already key-ascending list changes nothing: ties between
equal keys are kept in insertion order. -/
theorem stableSort_eq_self {α : Type} (key : α → Int) (l : List α)
    (h : l.Pairwise (fun x y => key x ≤ key y)) : stableSort key l = l := by
  induction l with
  | nil => rfl
  | cons a t ih =>
    rcases List.pairwise_cons.mp h with ⟨ha, ht⟩
    unfold stableSort
    simp only [List.foldr_cons]
    have hst : stableSort key t = t := ih ht
    unfold stableSort at hst
    rw [hst]
    cases t with
    | nil => rfl
    | cons b u =>
      unfold insertKey
      rw [if_pos (ha b (List.mem_cons_self b u))]

theorem except_bind_ok {ε α β : Type} (x : Except ε α) (f : α → Except ε β) (c : β) :
    (x >>= f) = .ok c ↔ ∃ b, x = .ok b ∧ f b = .ok c := by
  cases x with
  | error e =>
    constructor
    · intro h
      exact absurd h (by simp [Bind.bind, Except.bind])
    · rintro ⟨b, hb, -⟩
      exact absurd hb (by simp)
  | ok b =>
    constructor
    · intro h
      exact ⟨b, rfl, h⟩
    · rintro ⟨b', hb, hf⟩
      cases hb
      exact hf

/-! ## PQueue lemmas -/

theorem sortQ_contents_perm {α : Type} (key : α → Int) (q : PQueue α) :
    (q.sortQ key).contents.Perm q.contents := by
  unfold PQueue.sortQ
  by_cases h : q.isSorted
  · simp [h]
  · simp [h, stableSort_perm]

theorem sortQ_sortQ {α : Type} (key : α → Int) (q : PQueue α) :
    (q.sortQ key).sortQ key = q.sortQ key := by
  unfold PQueue.sortQ
  by_cases h : q.isSorted <;> simp [h]

/-- Popping a nonempty queue yields some element; the remainder is one
shorter and the popped element accounts for the difference in any countP. -/
theorem pop_spec {α : Type} (key : α → Int) (q : PQueue α) (h : q.contents ≠ []) :
    ∃ v q1, q.pop key = (some v, q1) ∧
      q1.contents.length + 1 = q.contents.length ∧
      (∀ p : α → Bool,
        q1.contents.countP p + (if p v then 1 else 0) = q.contents.countP p) := by
  have hperm := sortQ_contents_perm key q
  have hne : (q.sortQ key).contents ≠ [] := by
    intro hnil
    rw [hnil] at hperm
    exact h hperm.symm.eq_nil
  refine ⟨(q.sortQ key).contents.getLast hne,
    ⟨(q.sortQ key).contents.dropLast, (q.sortQ key).isSorted⟩, ?_, ?_, ?_⟩
  · simp only [PQueue.pop]
    rw [List.getLast?_eq_getLast _ hne]
  · show (q.sortQ key).contents.dropLast.length + 1 = q.contents.length
    have hlen := List.length_dropLast (q.sortQ key).contents
    have hpos : 0 < (q.sortQ key).contents.length := List.length_pos.mpr hne
    have hq := hperm.length_eq
    omega
  · intro p
    show (q.sortQ key).contents.dropLast.countP p + _ = _
    have hdec := List.dropLast_append_getLast hne
    have hc : ((q.sortQ key).contents.dropLast ++
        [(q.sortQ key).contents.getLast hne]).countP p
        = (q.sortQ key).contents.countP p := by rw [hdec]
    rw [List.countP_append] at hc
    have hone : ([(q.sortQ key).contents.getLast hne].countP p)
        = (if p ((q.sortQ key).contents.getLast hne) then 1 else 0) := by
      simp [List.countP_cons]
    rw [hone] at hc
    rw [hc]
    exact hperm.countP_eq p

theorem push_length {α : Type} (q : PQueue α) (v : α) :
    (q.push v).contents.length = q.contents.length + 1 := by
  simp [PQueue.push]

theorem push_countP {α : Type} (q : PQueue α) (v : α) (p : α → Bool) :
    (q.push v).contents.countP p
      = q.contents.countP p + (if p v then 1 else 0) := by
  simp [PQueue.push, List.countP_append, List.countP_cons]

/-! ## Histogram sums: the per-axis total equals the box count -/

theorem totalSum_eq_count (histo : Histo) (v : VBox) :
    ∀ ax : Axis, totalSum histo v ax = v.count histo := by
  intro ax
  cases ax with
  | r => rfl
  | g =>
    show ((pyRange v.g1 (v.g2 + 1)).map (sliceSum histo v .g)).sum = _
    unfold sliceSum VBox.count
    exact (sum_map_swap (pyRange v.r1 (v.r2 + 1)) (pyRange v.g1 (v.g2 + 1))
      (fun i j => ((pyRange v.b1 (v.b2 + 1)).map (fun k =>
        histoGet histo (getColorIndex i j k))).sum)).symm
  | b =>
    show ((pyRange v.b1 (v.b2 + 1)).map (sliceSum histo v .b)).sum = _
    unfold sliceSum VBox.count
    have step1 :
        ((pyRange v.r1 (v.r2 + 1)).map (fun i =>
          ((pyRange v.g1 (v.g2 + 1)).map (fun j =>
            ((pyRange v.b1 (v.b2 + 1)).map (fun k =>
              histoGet histo (getColorIndex i j k))).sum)).sum)).sum
        = ((pyRange v.r1 (v.r2 + 1)).map (fun i =>
            ((pyRange v.b1 (v.b2 + 1)).map (fun k =>
              ((pyRange v.g1 (v.g2 + 1)).map (fun j =>
                histoGet histo (getColorIndex i j k))).sum)).sum)).sum := by
      apply congrArg
      apply List.map_congr_left
      intro i _
      exact sum_map_swap (pyRange v.g1 (v.g2 + 1)) (pyRange v.b1 (v.b2 + 1))
        (fun j k => histoGet histo (getColorIndex i j k))
    rw [step1]
    exact (sum_map_swap (pyRange v.r1 (v.r2 + 1)) (pyRange v.b1 (v.b2 + 1))
      (fun i k => ((pyRange v.g1 (v.g2 + 1)).map (fun j =>
        histoGet histo (getColorIndex i j k))).sum)).symm

/-- A populated box has nonempty ranges on all three axes. -/
theorem count_pos_bounds (histo : Histo) (v : VBox) (h : v.count histo ≠ 0) :
    v.r1 ≤ v.r2 ∧ v.g1 ≤ v.g2 ∧ v.b1 ≤ v.b2 := by
  by_contra hcon
  apply h
  unfold VBox.count
  push_neg at hcon
  rw [sum_map_eq_zero_iff]
  intro i hi
  rw [sum_map_eq_zero_iff]
  intro j hj
  rw [sum_map_eq_zero_iff]
  intro k hk
  rcases mem_pyRange.mp hi with ⟨hi1, hi2⟩
  rcases mem_pyRange.mp hj with ⟨hj1, hj2⟩
  rcases mem_pyRange.mp hk with ⟨hk1, hk2⟩
  omega

theorem count_pos_lo_hi (histo : Histo) (v : VBox) (h : v.count histo ≠ 0)
    (ax : Axis) : v.lo ax ≤ v.hi ax := by
  rcases count_pos_bounds histo v h with ⟨h1, h2, h3⟩
  cases ax <;> assumption

/-! ## Median-cut splitter: structural specification -/

theorem scanIdx_some (histo : Histo) (v : VBox) (ax : Axis)
    (h : v.count histo ≠ 0) :
    ∃ i, scanIdx histo v ax = some i ∧ v.lo ax ≤ i ∧ i ≤ v.hi ax := by
  have hlh : v.lo ax ≤ v.hi ax := count_pos_lo_hi histo v h ax
  have htot : totalSum histo v ax ≠ 0 := by
    rw [totalSum_eq_count]
    exact h
  have hmem : v.hi ax ∈ pyRange (v.lo ax) (v.hi ax + 1) := mem_pyRange.mpr (by omega)
  have hpred : totalSum histo v ax < 2 * psum histo v ax (v.hi ax) := by
    show totalSum histo v ax < 2 * totalSum histo v ax
    omega
  have hsome : (scanIdx histo v ax).isSome := by
    unfold scanIdx
    rw [List.find?_isSome]
    exact ⟨v.hi ax, hmem, by simpa using hpred⟩
  rcases Option.isSome_iff_exists.mp hsome with ⟨i, hi⟩
  have hmem2 := List.mem_of_find?_eq_some hi
  rcases mem_pyRange.mp hmem2 with ⟨h1, h2⟩
  exact ⟨i, hi, h1, by omega⟩

theorem bwdAdjust_mem (ps look : Nat → Nat) (d1 : Nat)
    (hps : ∀ x, ps x ≠ 0 → d1 ≤ x) :
    ∀ d c2, d1 ≤ d → d1 ≤ bwdAdjust ps look c2 d ∧ bwdAdjust ps look c2 d ≤ d := by
  intro d
  induction d with
  | zero =>
    intro c2 hd
    simp only [bwdAdjust]
    omega
  | succ d ih =>
    intro c2 hd
    simp only [bwdAdjust]
    by_cases hc : c2 = 0 ∧ ps d ≠ 0
    · rw [if_pos hc]
      have hd1 : d1 ≤ d := hps d hc.2
      have := ih (look d) hd1
      omega
    · rw [if_neg hc]
      omega

theorem cutFwd_mem (histo : Histo) (v : VBox) (ax : Axis) (i : Nat)
    (hlh : v.lo ax ≤ v.hi ax) :
    v.lo ax ≤ cutFwd histo v ax i ∧ cutFwd histo v ax i ≤ v.hi ax := by
  simp only [cutFwd]
  rcases hfind : (pyRange ((max (cutCandidate v ax i) (v.lo ax : Int)).toNat)
      (v.hi ax + 1)).find? (fun d => decide (psumGet histo v ax d ≠ 0)) with _ | d
  · simp only [Option.getD_none]
    exact ⟨hlh, le_refl _⟩
  · have hmem := List.mem_of_find?_eq_some hfind
    rcases mem_pyRange.mp hmem with ⟨hm1, hm2⟩
    have hpd := List.find?_some hfind
    have hd1d : v.lo ax ≤ d := by
      by_contra hc
      have : psumGet histo v ax d = 0 := by
        unfold psumGet
        rw [if_neg (by omega)]
      simp [this] at hpd
    simp only [Option.getD_some]
    omega

theorem psumGet_lo (histo : Histo) (v : VBox) (ax : Axis) :
    ∀ x, psumGet histo v ax x ≠ 0 → v.lo ax ≤ x := by
  intro x hx
  unfold psumGet at hx
  by_cases hin : v.lo ax ≤ x ∧ x ≤ v.hi ax
  · exact hin.1
  · rw [if_neg hin] at hx
    exact absurd rfl hx

theorem adjustCut_mem (histo : Histo) (v : VBox) (ax : Axis) (i : Nat)
    (hlh : v.lo ax ≤ v.hi ax) :
    v.lo ax ≤ adjustCut histo v ax i ∧ adjustCut histo v ax i ≤ v.hi ax := by
  unfold adjustCut
  have hfwd := cutFwd_mem histo v ax i hlh
  have := bwdAdjust_mem (psumGet histo v ax) (lookGet histo v ax) (v.lo ax)
    (psumGet_lo histo v ax) (cutFwd histo v ax i)
    (lookGet histo v ax (cutFwd histo v ax i)) hfwd.1
  omega

/-- Structural characterisation of `median_cut_apply` on a populated box:
either the box holds exactly one pixel and is returned unsplit, or the cut
axis is divided at some plane d inside the axis range, the first child
keeping [lo, d] and the second [d+1, hi]. -/
theorem medianCutApply_spec (histo : Histo) (v : VBox) (h : v.count histo ≠ 0) :
    (v.count histo = 1 ∧ medianCutApply histo v = (some v, none)) ∨
    (∃ d, v.lo (cutAxis v) ≤ d ∧ d ≤ v.hi (cutAxis v) ∧
      medianCutApply histo v =
        (some (v.setHi (cutAxis v) d), some (v.setLo (cutAxis v) (d + 1)))) := by
  by_cases h1 : v.count histo = 1
  · left
    refine ⟨h1, ?_⟩
    unfold medianCutApply
    rw [if_neg h, if_pos h1]
  · right
    rcases scanIdx_some histo v (cutAxis v) h with ⟨i, hscan, hi1, hi2⟩
    have hlh : v.lo (cutAxis v) ≤ v.hi (cutAxis v) := count_pos_lo_hi histo v h _
    refine ⟨adjustCut histo v (cutAxis v) i,
      (adjustCut_mem histo v (cutAxis v) i hlh).1,
      (adjustCut_mem histo v (cutAxis v) i hlh).2, ?_⟩
    unfold medianCutApply
    rw [if_neg h, if_neg h1]
    simp only [hscan]

/-- On a populated box the splitter always delivers a first child. -/
theorem medianCutApply_fst_some (histo : Histo) (v : VBox) (h : v.count histo ≠ 0) :
    ∃ v1 ob, medianCutApply histo v = (some v1, ob) := by
  rcases medianCutApply_spec histo v h with ⟨-, heq⟩ | ⟨d, -, -, heq⟩
  · exact ⟨v, none, heq⟩
  · exact ⟨_, _, heq⟩

/-! ## Bounds invariant and average-color bounds -/

theorem medianCutApply_zero (histo : Histo) (v : VBox) (h : v.count histo = 0) :
    medianCutApply histo v = (none, none) := by
  unfold medianCutApply
  rw [if_pos h]

theorem inv_setHi (v : VBox) (ax : Axis) (d : Nat) (hinv : VBoxInv v)
    (hd1 : v.lo ax ≤ d) (hd2 : d ≤ v.hi ax) : VBoxInv (v.setHi ax d) := by
  cases ax <;>
    (simp only [VBoxInv, VBox.setHi, VBox.lo, VBox.hi] at * ; omega)

theorem inv_setLo (v : VBox) (ax : Axis) (d : Nat) (hinv : VBoxInv v)
    (hd1 : v.lo ax ≤ d) (hd2 : d ≤ v.hi ax) : VBoxInv (v.setLo ax (d + 1)) := by
  cases ax <;>
    (simp only [VBoxInv, VBox.setLo, VBox.lo, VBox.hi] at * ; omega)

/-- Every region reachable from an invariant-satisfying initial region
satisfies the bounds invariant. -/
theorem reachable_inv (histo : Histo) (v0 : VBox) (h0 : VBoxInv v0) :
    ∀ v, Reachable histo v0 v → VBoxInv v := by
  intro v hr
  induction hr with
  | init => exact h0
  | @fst v v1 ob hrv heq ih =>
    have hc : v.count histo ≠ 0 := by
      intro hz
      rw [medianCutApply_zero histo v hz] at heq
      exact absurd (congrArg Prod.fst heq) (by simp)
    rcases medianCutApply_spec histo v hc with ⟨-, heq2⟩ | ⟨d, hd1, hd2, heq2⟩
    · rw [heq] at heq2
      have : v1 = v := by
        have := congrArg Prod.fst heq2
        simpa using this
      rw [this]
      exact ih
    · rw [heq] at heq2
      have : v1 = v.setHi (cutAxis v) d := by
        have := congrArg Prod.fst heq2
        simpa using this
      rw [this]
      exact inv_setHi v _ d ih hd1 hd2
  | @snd v v2 oa hrv heq ih =>
    have hc : v.count histo ≠ 0 := by
      intro hz
      rw [medianCutApply_zero histo v hz] at heq
      exact absurd (congrArg Prod.snd heq) (by simp)
    rcases medianCutApply_spec histo v hc with ⟨-, heq2⟩ | ⟨d, hd1, hd2, heq2⟩
    · rw [heq] at heq2
      exact absurd (congrArg Prod.snd heq2) (by simp)
    · rw [heq] at heq2
      have : v2 = v.setLo (cutAxis v) (d + 1) := by
        have := congrArg Prod.snd heq2
        simpa using this
      rw [this]
      exact inv_setLo v _ d ih hd1 hd2

theorem sum3_le (l1 l2 l3 : List Nat) (f g : Nat → Nat → Nat → Nat)
    (h : ∀ i ∈ l1, ∀ j ∈ l2, ∀ k ∈ l3, f i j k ≤ g i j k) :
    ((l1.map (fun i => ((l2.map (fun j => ((l3.map (fun k => f i j k)).sum))).sum))).sum)
    ≤ ((l1.map (fun i => ((l2.map (fun j => ((l3.map (fun k => g i j k)).sum))).sum))).sum) := by
  apply List.sum_le_sum
  intro i hi
  apply List.sum_le_sum
  intro j hj
  apply List.sum_le_sum
  intro k hk
  exact h i hi j hj k hk

theorem sum_map_mul_const {α : Type} (l : List α) (f : α → Nat) (c : Nat) :
    (l.map (fun x => f x * c)).sum = (l.map f).sum * c := by
  induction l with
  | nil => simp
  | cons a t ih =>
    simp only [List.map_cons, List.sum_cons, ih]
    ring

theorem sum3_mul_const (l1 l2 l3 : List Nat) (f : Nat → Nat → Nat → Nat) (c : Nat) :
    ((l1.map (fun i => ((l2.map (fun j => ((l3.map (fun k => f i j k * c)).sum))).sum))).sum)
    = ((l1.map (fun i => ((l2.map (fun j => ((l3.map (fun k => f i j k)).sum))).sum))).sum) * c := by
  have h1 : ∀ i, ((l2.map (fun j => ((l3.map (fun k => f i j k * c)).sum))).sum)
      = ((l2.map (fun j => ((l3.map (fun k => f i j k)).sum))).sum) * c := by
    intro i
    have h2 : ∀ j, ((l3.map (fun k => f i j k * c)).sum)
        = ((l3.map (fun k => f i j k)).sum) * c := by
      intro j
      exact sum_map_mul_const l3 (fun k => f i j k) c
    calc ((l2.map (fun j => ((l3.map (fun k => f i j k * c)).sum))).sum)
        = ((l2.map (fun j => ((l3.map (fun k => f i j k)).sum) * c)).sum) := by
          apply congrArg
          exact List.map_congr_left (fun j _ => h2 j)
      _ = ((l2.map (fun j => ((l3.map (fun k => f i j k)).sum))).sum) * c :=
          sum_map_mul_const l2 _ c
  calc ((l1.map (fun i => ((l2.map (fun j => ((l3.map (fun k => f i j k * c)).sum))).sum))).sum)
      = ((l1.map (fun i => ((l2.map (fun j => ((l3.map (fun k => f i j k)).sum))).sum) * c)).sum) := by
        apply congrArg
        exact List.map_congr_left (fun i _ => h1 i)
    _ = _ := sum_map_mul_const l1 _ c

/-- Every channel of the average color of a region satisfying the bounds
invariant is at most 256 (252 when the region is populated; 256 is attained
by degenerate empty children at the very top of an axis). -/
theorem avg_channels_le (histo : Histo) (v : VBox) (hinv : VBoxInv v) :
    (v.avg histo).1 ≤ 256 ∧ (v.avg histo).2.1 ≤ 256 ∧ (v.avg histo).2.2 ≤ 256 := by
  obtain ⟨hra, hrb, hrc, hga, hgb, hgc, hba, hbb, hbc⟩ := hinv
  have hmult : (1 <<< (8 - SIGBITS)) = 8 := by decide
  by_cases hnt : v.count histo = 0
  · simp [VBox.avg, hmult, hnt]
    omega
  · have hdivle : ∀ s : Nat, s ≤ v.count histo * 252 → s / v.count histo ≤ 256 := by
      intro s hs
      have h1 : s / v.count histo ≤ (v.count histo * 252) / v.count histo :=
        Nat.div_le_div_right hs
      have h2 : (v.count histo * 252) / v.count histo = 252 := by
        rw [Nat.mul_comm]
        exact Nat.mul_div_cancel 252 (Nat.pos_of_ne_zero hnt)
      omega
    simp only [VBox.avg, hmult]
    rw [if_pos hnt]
    refine ⟨hdivle _ ?_, hdivle _ ?_, hdivle _ ?_⟩
    · calc ((pyRange v.r1 (v.r2 + 1)).map (fun i =>
          ((pyRange v.g1 (v.g2 + 1)).map (fun j =>
            ((pyRange v.b1 (v.b2 + 1)).map (fun k =>
              histoGet histo (getColorIndex i j k) * ((2 * i + 1) * (8 / 2)))).sum)).sum)).sum
          ≤ ((pyRange v.r1 (v.r2 + 1)).map (fun i =>
              ((pyRange v.g1 (v.g2 + 1)).map (fun j =>
                ((pyRange v.b1 (v.b2 + 1)).map (fun k =>
                  histoGet histo (getColorIndex i j k) * 252)).sum)).sum)).sum := by
            apply sum3_le
            intro i hi j hj k hk
            rcases mem_pyRange.mp hi with ⟨hi1, hi2⟩
            have h252 : (2 * i + 1) * (8 / 2) ≤ 252 := by omega
            exact Nat.mul_le_mul_left _ h252
      _ = v.count histo * 252 := by
            rw [sum3_mul_const]
            rfl
    · calc ((pyRange v.r1 (v.r2 + 1)).map (fun i =>
          ((pyRange v.g1 (v.g2 + 1)).map (fun j =>
            ((pyRange v.b1 (v.b2 + 1)).map (fun k =>
              histoGet histo (getColorIndex i j k) * ((2 * j + 1) * (8 / 2)))).sum)).sum)).sum
          ≤ ((pyRange v.r1 (v.r2 + 1)).map (fun i =>
              ((pyRange v.g1 (v.g2 + 1)).map (fun j =>
                ((pyRange v.b1 (v.b2 + 1)).map (fun k =>
                  histoGet histo (getColorIndex i j k) * 252)).sum)).sum)).sum := by
            apply sum3_le
            intro i hi j hj k hk
            rcases mem_pyRange.mp hj with ⟨hj1, hj2⟩
            have h252 : (2 * j + 1) * (8 / 2) ≤ 252 := by omega
            exact Nat.mul_le_mul_left _ h252
      _ = v.count histo * 252 := by
            rw [sum3_mul_const]
            rfl
    · calc ((pyRange v.r1 (v.r2 + 1)).map (fun i =>
          ((pyRange v.g1 (v.g2 + 1)).map (fun j =>
            ((pyRange v.b1 (v.b2 + 1)).map (fun k =>
              histoGet histo (getColorIndex i j k) * ((2 * k + 1) * (8 / 2)))).sum)).sum)).sum
          ≤ ((pyRange v.r1 (v.r2 + 1)).map (fun i =>
              ((pyRange v.g1 (v.g2 + 1)).map (fun j =>
                ((pyRange v.b1 (v.b2 + 1)).map (fun k =>
                  histoGet histo (getColorIndex i j k) * 252)).sum)).sum)).sum := by
            apply sum3_le
            intro i hi j hj k hk
            rcases mem_pyRange.mp hk with ⟨hk1, hk2⟩
            have h252 : (2 * k + 1) * (8 / 2) ≤ 252 := by omega
            exact Nat.mul_le_mul_left _ h252
      _ = v.count histo * 252 := by
            rw [sum3_mul_const]
            rfl

/-! ## Initial region: bounds and membership -/

theorem red_le_31 {n : Nat} (h : n ≤ 255) : n >>> RSHIFT ≤ 31 := by
  have : n >>> RSHIFT = n / 2 ^ 3 := by
    rw [Nat.shiftRight_eq_div_pow]
    rfl
  omega

theorem foldl_vboxStep_mono (l : List Pixel) :
    ∀ st : Bnds,
      (l.foldl vboxStep st).rmin ≤ st.rmin ∧ st.rmax ≤ (l.foldl vboxStep st).rmax ∧
      (l.foldl vboxStep st).gmin ≤ st.gmin ∧ st.gmax ≤ (l.foldl vboxStep st).gmax ∧
      (l.foldl vboxStep st).bmin ≤ st.bmin ∧ st.bmax ≤ (l.foldl vboxStep st).bmax := by
  induction l with
  | nil =>
    intro st
    simp [List.foldl_nil]
  | cons p t ih =>
    intro st
    simp only [List.foldl_cons]
    have h1 := ih (vboxStep st p)
    simp only [vboxStep] at h1 ⊢
    omega

theorem foldl_vboxStep_mem (l : List Pixel) :
    ∀ (st : Bnds) (p : Pixel), p ∈ l →
      (l.foldl vboxStep st).rmin ≤ p.1 >>> RSHIFT ∧
      p.1 >>> RSHIFT ≤ (l.foldl vboxStep st).rmax ∧
      (l.foldl vboxStep st).gmin ≤ p.2.1 >>> RSHIFT ∧
      p.2.1 >>> RSHIFT ≤ (l.foldl vboxStep st).gmax ∧
      (l.foldl vboxStep st).bmin ≤ p.2.2 >>> RSHIFT ∧
      p.2.2 >>> RSHIFT ≤ (l.foldl vboxStep st).bmax := by
  induction l with
  | nil =>
    intro st p hp
    exact absurd hp (List.not_mem_nil p)
  | cons a t ih =>
    intro st p hp
    simp only [List.foldl_cons]
    rcases List.mem_cons.mp hp with rfl | hp
    · have h1 := foldl_vboxStep_mono t (vboxStep st p)
      simp only [vboxStep] at h1 ⊢
      omega
    · exact ih (vboxStep st a) p hp

theorem foldl_vboxStep_max_le (l : List Pixel)
    (hl : ∀ p ∈ l, validPix p) :
    ∀ st : Bnds,
      (l.foldl vboxStep st).rmax ≤ max st.rmax 31 ∧
      (l.foldl vboxStep st).gmax ≤ max st.gmax 31 ∧
      (l.foldl vboxStep st).bmax ≤ max st.bmax 31 := by
  induction l with
  | nil =>
    intro st
    simp only [List.foldl_nil]
    omega
  | cons p t ih =>
    intro st
    simp only [List.foldl_cons]
    have hp := hl p (List.mem_cons_self p t)
    have hr := red_le_31 hp.1
    have hg := red_le_31 hp.2.1
    have hb := red_le_31 hp.2.2
    have h1 := ih (fun q hq => hl q (List.mem_cons_of_mem p hq)) (vboxStep st p)
    simp only [vboxStep] at h1 ⊢
    omega

/-- The initial region of a nonempty valid pixel list satisfies the bounds
invariant (in fact with proper, nonempty ranges). -/
theorem vboxFromPixels_inv (pixels : List Pixel) (hne : pixels ≠ [])
    (hval : ∀ p ∈ pixels, validPix p) : VBoxInv (vboxFromPixels pixels) := by
  rcases List.exists_mem_of_ne_nil pixels hne with ⟨p, hp⟩
  have hmem := foldl_vboxStep_mem pixels ⟨1000000, 0, 1000000, 0, 1000000, 0⟩ p hp
  have hmax := foldl_vboxStep_max_le pixels hval ⟨1000000, 0, 1000000, 0, 1000000, 0⟩
  have hpv := hval p hp
  have hr := red_le_31 hpv.1
  have hg := red_le_31 hpv.2.1
  have hb := red_le_31 hpv.2.2
  simp only [vboxFromPixels, VBoxInv]
  simp only at hmax
  omega

/-- The initial region contains every input pixel. -/
theorem vboxFromPixels_contains (pixels : List Pixel) (p : Pixel)
    (hp : p ∈ pixels) : (vboxFromPixels pixels).contains p = true := by
  have hmem := foldl_vboxStep_mem pixels ⟨1000000, 0, 1000000, 0, 1000000, 0⟩ p hp
  simp only [vboxFromPixels, VBox.contains, VBox.containsRGB, Bool.and_eq_true,
    decide_eq_true_eq]
  omega

/-! ## Split children partition the containment test -/

theorem split_contains (v : VBox) (ax : Axis) (d : Nat)
    (hd1 : v.lo ax ≤ d) (hd2 : d ≤ v.hi ax) (p : Pixel) :
    (if (v.setHi ax d).contains p then 1 else 0) +
      (if (v.setLo ax (d + 1)).contains p then 1 else 0)
    = (if v.contains p then 1 else 0) := by
  cases ax <;>
    (simp only [VBox.contains, VBox.containsRGB, VBox.setHi, VBox.setLo,
      VBox.lo, VBox.hi, Bool.and_eq_true, decide_eq_true_eq] at *
     split_ifs <;> omega)

theorem medianCut_countP (histo : Histo) (v : VBox) (hc : v.count histo ≠ 0)
    (v1 : VBox) (ob : Option VBox)
    (heq : medianCutApply histo v = (some v1, ob)) (p : Pixel) :
    (if v1.contains p then 1 else 0) +
      (match ob with
        | some v2 => if v2.contains p then 1 else 0
        | none => 0)
    = (if v.contains p then 1 else 0) := by
  rcases medianCutApply_spec histo v hc with ⟨-, heq2⟩ | ⟨d, hd1, hd2, heq2⟩ <;>
    rw [heq] at heq2
  · have h1 : v1 = v := by
      have := congrArg Prod.fst heq2
      simpa using this
    have h2 : ob = none := by
      have := congrArg Prod.snd heq2
      simpa using this
    rw [h1, h2]
    simp
  · have h1 : v1 = v.setHi (cutAxis v) d := by
      have := congrArg Prod.fst heq2
      simpa using this
    have h2 : ob = some (v.setLo (cutAxis v) (d + 1)) := by
      have := congrArg Prod.snd heq2
      simpa using this
    rw [h1, h2]
    exact split_contains v (cutAxis v) d hd1 hd2 p

/-! ## Queue pop helpers -/

theorem pop_fst_none {α : Type} (key : α → Int) (q : PQueue α)
    (h : q.contents = []) : (q.pop key).1 = none := by
  unfold PQueue.pop PQueue.sortQ
  by_cases hs : q.isSorted
  · simp [hs, h]
  · simp [hs, h, stableSort]

theorem pop_eq_some_spec {α : Type} (key : α → Int) (q : PQueue α) (v : α)
    (q1 : PQueue α) (h : q.pop key = (some v, q1)) :
    q1.contents.length + 1 = q.contents.length ∧
    (∀ p : α → Bool,
      q1.contents.countP p + (if p v then 1 else 0) = q.contents.countP p) := by
  have hne : q.contents ≠ [] := by
    intro hnil
    have := pop_fst_none key q hnil
    rw [h] at this
    simp at this
  obtain ⟨v', q1', heq, hlen, hcnt⟩ := pop_spec key q hne
  rw [h] at heq
  have hv : v = v' := by
    have := congrArg Prod.fst heq
    simpa using this
  have hq : q1 = q1' := by
    have := congrArg Prod.snd heq
    simpa using this
  subst hv
  subst hq
  exact ⟨hlen, hcnt⟩

theorem medianCut_countP_two (histo : Histo) (v : VBox) (hc : v.count histo ≠ 0)
    (v1 v2 : VBox) (heq : medianCutApply histo v = (some v1, some v2)) (p : Pixel) :
    (if v1.contains p then 1 else 0) + (if v2.contains p then 1 else 0)
      = (if v.contains p then 1 else 0) := by
  have := medianCut_countP histo v hc v1 (some v2) heq p
  simpa using this

theorem medianCut_countP_one (histo : Histo) (v : VBox) (hc : v.count histo ≠ 0)
    (v1 : VBox) (heq : medianCutApply histo v = (some v1, none)) (p : Pixel) :
    (if v1.contains p then 1 else 0) = (if v.contains p then 1 else 0) := by
  have := medianCut_countP histo v hc v1 none heq p
  simpa using this

/-! ## The refinement loop: containment count, size bounds, error freedom -/

/-- `iter_` preserves, for every pixel, the number of queue regions that
contain it: a split replaces a region by two regions that partition it. -/
theorem iterLoop_countP (key : VBox → Int) (histo : Histo) (tgt4 : Int) (p : Pixel) :
    ∀ (fuel : Nat) (q : PQueue VBox) (n : Nat) (q' : PQueue VBox),
      iterLoop key histo tgt4 fuel q n = .ok q' →
      q'.contents.countP (fun v => v.contains p)
        = q.contents.countP (fun v => v.contains p) := by
  intro fuel
  induction fuel with
  | zero =>
    intro q n q' h
    simp only [iterLoop] at h
    injection h with h
    rw [h]
  | succ fuel ih =>
    intro q n q' h
    rw [iterLoop] at h
    rcases hpop : q.pop key with ⟨o, q1⟩
    rw [hpop] at h
    cases o with
    | none => simp at h
    | some v =>
      dsimp only at h
      obtain ⟨hlen, hcnt⟩ := pop_eq_some_spec key q v q1 hpop
      have hcntp := hcnt (fun v => v.contains p)
      by_cases hcz : v.count histo = 0
      · rw [if_pos hcz] at h
        have hrec := ih (q1.push v) n q' h
        rw [hrec, push_countP]
        omega
      · rw [if_neg hcz] at h
        rcases hmca : medianCutApply histo v with ⟨oa, ob⟩
        rw [hmca] at h
        cases oa with
        | none => simp at h
        | some v1 =>
          dsimp only at h
          cases ob with
          | some v2 =>
            dsimp only at h
            have hpart := medianCut_countP_two histo v hcz v1 v2 hmca p
            by_cases htgt : tgt4 ≤ 4 * ((n + 1 : Nat) : Int)
            · rw [if_pos htgt] at h
              injection h with h
              rw [← h, push_countP, push_countP]
              omega
            · rw [if_neg htgt] at h
              have hrec := ih ((q1.push v1).push v2) (n + 1) q' h
              rw [hrec, push_countP, push_countP]
              omega
          | none =>
            dsimp only at h
            have hpart := medianCut_countP_one histo v hcz v1 hmca p
            by_cases htgt : tgt4 ≤ 4 * ((n : Nat) : Int)
            · rw [if_pos htgt] at h
              injection h with h
              rw [← h, push_countP]
              omega
            · rw [if_neg htgt] at h
              have hrec := ih (q1.push v1) n q' h
              rw [hrec, push_countP]
              omega

/-- Size bound for `iter_`: if the exit threshold is at most `4 * m` and the
starting color count is at most m, the queue grows by at most
`max (m - n) 1` regions before the loop exits (the `1` covers the
mandatory first split of an invocation whose target is already met). -/
theorem iterLoop_length_le (key : VBox → Int) (histo : Histo) (tgt4 : Int) :
    ∀ (fuel : Nat) (q : PQueue VBox) (n : Nat) (q' : PQueue VBox) (m : Nat),
      iterLoop key histo tgt4 fuel q n = .ok q' →
      n ≤ m → tgt4 ≤ 4 * (m : Int) →
      q'.contents.length ≤ q.contents.length + max (m - n) 1 := by
  intro fuel
  induction fuel with
  | zero =>
    intro q n q' m h hnm hm
    simp only [iterLoop] at h
    injection h with h
    rw [h]
    omega
  | succ fuel ih =>
    intro q n q' m h hnm hm
    rw [iterLoop] at h
    rcases hpop : q.pop key with ⟨o, q1⟩
    rw [hpop] at h
    cases o with
    | none => simp at h
    | some v =>
      dsimp only at h
      obtain ⟨hlen, -⟩ := pop_eq_some_spec key q v q1 hpop
      by_cases hcz : v.count histo = 0
      · rw [if_pos hcz] at h
        have hrec := ih (q1.push v) n q' m h hnm hm
        rw [push_length] at hrec
        omega
      · rw [if_neg hcz] at h
        rcases hmca : medianCutApply histo v with ⟨oa, ob⟩
        rw [hmca] at h
        cases oa with
        | none => simp at h
        | some v1 =>
          dsimp only at h
          cases ob with
          | some v2 =>
            dsimp only at h
            by_cases htgt : tgt4 ≤ 4 * ((n + 1 : Nat) : Int)
            · rw [if_pos htgt] at h
              injection h with h
              rw [← h, push_length, push_length]
              omega
            · rw [if_neg htgt] at h
              have hn1m : n + 1 ≤ m := by
                push_neg at htgt
                have : (n : Int) + 1 < m := by
                  push_cast at htgt hm ⊢
                  omega
                exact_mod_cast by omega
              have hrec := ih ((q1.push v1).push v2) (n + 1) q' m h hn1m hm
              rw [push_length, push_length] at hrec
              have hmn : n + 1 < m ∨ n + 1 = m := by omega
              omega
          | none =>
            dsimp only at h
            by_cases htgt : tgt4 ≤ 4 * ((n : Nat) : Int)
            · rw [if_pos htgt] at h
              injection h with h
              rw [← h, push_length]
              omega
            · rw [if_neg htgt] at h
              have hrec := ih (q1.push v1) n q' m h hnm hm
              rw [push_length] at hrec
              omega

/-- `iter_` never raises on a nonempty queue: the popped region exists, and
a populated region always yields a first child.  The queue also stays
nonempty. -/
theorem iterLoop_ok_ne (key : VBox → Int) (histo : Histo) (tgt4 : Int) :
    ∀ (fuel : Nat) (q : PQueue VBox) (n : Nat), q.contents ≠ [] →
      ∃ q', iterLoop key histo tgt4 fuel q n = .ok q' ∧ q'.contents ≠ [] := by
  intro fuel
  induction fuel with
  | zero =>
    intro q n hq
    exact ⟨q, rfl, hq⟩
  | succ fuel ih =>
    intro q n hq
    obtain ⟨v, q1, hpop, hlen, -⟩ := pop_spec key q hq
    rw [iterLoop, hpop]
    dsimp only
    by_cases hcz : v.count histo = 0
    · rw [if_pos hcz]
      exact ih (q1.push v) n (by simp [PQueue.push])
    · rw [if_neg hcz]
      obtain ⟨v1, ob, hmca⟩ := medianCutApply_fst_some histo v hcz
      rw [hmca]
      dsimp only
      cases ob with
      | some v2 =>
        dsimp only
        by_cases htgt : tgt4 ≤ 4 * ((n + 1 : Nat) : Int)
        · rw [if_pos htgt]
          exact ⟨_, rfl, by simp [PQueue.push]⟩
        · rw [if_neg htgt]
          exact ih ((q1.push v1).push v2) (n + 1) (by simp [PQueue.push])
      | none =>
        dsimp only
        by_cases htgt : tgt4 ≤ 4 * ((n : Nat) : Int)
        · rw [if_pos htgt]
          exact ⟨_, rfl, by simp [PQueue.push]⟩
        · rw [if_neg htgt]
          exact ih (q1.push v1) n (by simp [PQueue.push])

/-! ## Transfer and drain loops -/

theorem transferLoop_length (key : VBox → Int) :
    ∀ (fuel : Nat) (src dst : PQueue VBox), src.contents.length ≤ fuel →
      (transferLoop key fuel src dst).contents.length
        = src.contents.length + dst.contents.length := by
  intro fuel
  induction fuel with
  | zero =>
    intro src dst hf
    simp only [transferLoop]
    omega
  | succ fuel ih =>
    intro src dst hf
    rw [transferLoop]
    by_cases hsrc : src.contents = []
    · rw [if_pos (by simp [hsrc])]
      simp [hsrc]
    · rw [if_neg (by simp [hsrc])]
      obtain ⟨v, q1, hpop, hlen, -⟩ := pop_spec key src hsrc
      rw [hpop]
      dsimp only
      rw [ih q1 (dst.push v) (by omega), push_length]
      omega

theorem transferLoop_countP (key : VBox → Int) (p : VBox → Bool) :
    ∀ (fuel : Nat) (src dst : PQueue VBox), src.contents.length ≤ fuel →
      (transferLoop key fuel src dst).contents.countP p
        = src.contents.countP p + dst.contents.countP p := by
  intro fuel
  induction fuel with
  | zero =>
    intro src dst hf
    have : src.contents = [] := by
      cases h : src.contents with
      | nil => rfl
      | cons a t => rw [h] at hf; simp at hf
    simp only [transferLoop]
    simp [this]
  | succ fuel ih =>
    intro src dst hf
    rw [transferLoop]
    by_cases hsrc : src.contents = []
    · rw [if_pos (by simp [hsrc])]
      simp [hsrc]
    · rw [if_neg (by simp [hsrc])]
      obtain ⟨v, q1, hpop, hlen, hcnt⟩ := pop_spec key src hsrc
      rw [hpop]
      dsimp only
      rw [ih q1 (dst.push v) (by omega), push_countP]
      have := hcnt p
      omega

theorem transferLoop_isSorted (key : VBox → Int) :
    ∀ (fuel : Nat) (src dst : PQueue VBox), dst.isSorted = false →
      (transferLoop key fuel src dst).isSorted = false := by
  intro fuel
  induction fuel with
  | zero =>
    intro src dst h
    exact h
  | succ fuel ih =>
    intro src dst h
    rw [transferLoop]
    by_cases hsrc : src.contents = []
    · rw [if_pos (by simp [hsrc])]
      exact h
    · rw [if_neg (by simp [hsrc])]
      obtain ⟨v, q1, hpop, -, -⟩ := pop_spec key src hsrc
      rw [hpop]
      exact ih q1 (dst.push v) rfl

theorem push_isSorted {α : Type} (q : PQueue α) (v : α) :
    (q.push v).isSorted = false := rfl

theorem iterLoop_isSorted (key : VBox → Int) (histo : Histo) (tgt4 : Int) :
    ∀ (fuel : Nat) (q : PQueue VBox) (n : Nat) (q' : PQueue VBox),
      iterLoop key histo tgt4 fuel q n = .ok q' → q.isSorted = false →
      q'.isSorted = false := by
  intro fuel
  induction fuel with
  | zero =>
    intro q n q' h hs
    simp only [iterLoop] at h
    injection h with h
    rw [← h]
    exact hs
  | succ fuel ih =>
    intro q n q' h hs
    rw [iterLoop] at h
    rcases hpop : q.pop key with ⟨o, q1⟩
    rw [hpop] at h
    cases o with
    | none => simp at h
    | some v =>
      dsimp only at h
      by_cases hcz : v.count histo = 0
      · rw [if_pos hcz] at h
        exact ih (q1.push v) n q' h rfl
      · rw [if_neg hcz] at h
        rcases hmca : medianCutApply histo v with ⟨oa, ob⟩
        rw [hmca] at h
        cases oa with
        | none => simp at h
        | some v1 =>
          dsimp only at h
          cases ob with
          | some v2 =>
            dsimp only at h
            by_cases htgt : tgt4 ≤ 4 * ((n + 1 : Nat) : Int)
            · rw [if_pos htgt] at h
              injection h with h
              rw [← h]
              rfl
            · rw [if_neg htgt] at h
              exact ih ((q1.push v1).push v2) (n + 1) q' h rfl
          | none =>
            dsimp only at h
            by_cases htgt : tgt4 ≤ 4 * ((n : Nat) : Int)
            · rw [if_pos htgt] at h
              injection h with h
              rw [← h]
              rfl
            · rw [if_neg htgt] at h
              exact ih (q1.push v1) n q' h rfl

theorem cmap_push_contents (histo : Histo) (cm : CMap) (v : VBox) :
    (cm.push histo v).vboxes.contents
      = cm.vboxes.contents ++ [(v, v.avg histo)] := rfl

theorem drainLoop_length (histo : Histo) :
    ∀ (fuel : Nat) (src : PQueue VBox) (cm : CMap), src.contents.length ≤ fuel →
      (drainLoop histo fuel src cm).vboxes.contents.length
        = src.contents.length + cm.vboxes.contents.length := by
  intro fuel
  induction fuel with
  | zero =>
    intro src cm hf
    simp only [drainLoop]
    omega
  | succ fuel ih =>
    intro src cm hf
    rw [drainLoop]
    by_cases hsrc : src.contents = []
    · rw [if_pos (by simp [hsrc])]
      simp [hsrc]
    · rw [if_neg (by simp [hsrc])]
      obtain ⟨v, q1, hpop, hlen, -⟩ := pop_spec (keyCountVol histo) src hsrc
      rw [hpop]
      dsimp only
      rw [ih q1 (cm.push histo v) (by omega)]
      rw [cmap_push_contents]
      simp
      omega

theorem drainLoop_countP (histo : Histo) (p : VBox → Bool) :
    ∀ (fuel : Nat) (src : PQueue VBox) (cm : CMap), src.contents.length ≤ fuel →
      (drainLoop histo fuel src cm).vboxes.contents.countP (fun e => p e.1)
        = src.contents.countP p + cm.vboxes.contents.countP (fun e => p e.1) := by
  intro fuel
  induction fuel with
  | zero =>
    intro src cm hf
    have : src.contents = [] := by
      cases h : src.contents with
      | nil => rfl
      | cons a t => rw [h] at hf; simp at hf
    simp only [drainLoop]
    simp [this]
  | succ fuel ih =>
    intro src cm hf
    rw [drainLoop]
    by_cases hsrc : src.contents = []
    · rw [if_pos (by simp [hsrc])]
      simp [hsrc]
    · rw [if_neg (by simp [hsrc])]
      obtain ⟨v, q1, hpop, hlen, hcnt⟩ := pop_spec (keyCountVol histo) src hsrc
      rw [hpop]
      dsimp only
      rw [ih q1 (cm.push histo v) (by omega)]
      rw [cmap_push_contents, List.countP_append]
      have := hcnt p
      simp only [List.countP_cons, List.countP_nil]
      omega

/-! ## Unfolding quantize -/

theorem except_ok_bind {ε α β : Type} (b : α) (f : α → Except ε β) :
    ((.ok b : Except ε α) >>= f) = f b := rfl

theorem quantize_valid_eq (pixels : List Pixel) (n : Nat)
    (hp : ¬ pixels.isEmpty = true) (hn : ¬(n < 2 ∨ 256 < n)) :
    quantize pixels n =
      (iterLoop (keyCount (getHisto pixels)) (getHisto pixels) (3 * (n : Int)) maxIter
          (PQueue.push ⟨[], false⟩ (vboxFromPixels pixels)) 1 >>= fun pq1 =>
        iterLoop (keyCountVol (getHisto pixels)) (getHisto pixels)
            (4 * ((n : Int) - ((transferLoop (keyCount (getHisto pixels)) pq1.size pq1
              ⟨[], false⟩).size : Int)))
            maxIter (transferLoop (keyCount (getHisto pixels)) pq1.size pq1 ⟨[], false⟩) 1
          >>= fun pq2f =>
        .ok (drainLoop (getHisto pixels) pq2f.size pq2f CMap.init)) := by
  unfold quantize
  rw [if_neg hp, if_neg hn]

theorem quantize_ok_elim (pixels : List Pixel) (n : Nat) (cm : CMap)
    (h : quantize pixels n = .ok cm) :
    pixels ≠ [] ∧ 2 ≤ n ∧ n ≤ 256 ∧
    ∃ pq1 pq2f : PQueue VBox,
      iterLoop (keyCount (getHisto pixels)) (getHisto pixels) (3 * (n : Int))
        maxIter (PQueue.push ⟨[], false⟩ (vboxFromPixels pixels)) 1 = .ok pq1 ∧
      iterLoop (keyCountVol (getHisto pixels)) (getHisto pixels)
        (4 * ((n : Int) - ((transferLoop (keyCount (getHisto pixels)) pq1.size pq1
          ⟨[], false⟩).size : Int)))
        maxIter (transferLoop (keyCount (getHisto pixels)) pq1.size pq1 ⟨[], false⟩) 1
        = .ok pq2f ∧
      cm = drainLoop (getHisto pixels) pq2f.size pq2f CMap.init := by
  by_cases hp : pixels.isEmpty
  · unfold quantize at h
    rw [if_pos hp] at h
    simp at h
  · by_cases hn : n < 2 ∨ 256 < n
    · unfold quantize at h
      rw [if_neg hp, if_pos hn] at h
      simp at h
    · rw [quantize_valid_eq pixels n hp hn] at h
      push_neg at hn
      refine ⟨by simpa using hp, hn.1, hn.2, ?_⟩
      rw [except_bind_ok] at h
      obtain ⟨pq1, h1, h2⟩ := h
      rw [except_bind_ok] at h2
      obtain ⟨pq2f, h3, h4⟩ := h2
      injection h4 with h4
      exact ⟨pq1, pq2f, h1, h3, h4.symm⟩

theorem quantize_ok_of_valid (pixels : List Pixel) (n : Nat)
    (hp : pixels ≠ []) (h2 : 2 ≤ n) (h256 : n ≤ 256) :
    ∃ cm, quantize pixels n = .ok cm := by
  rw [quantize_valid_eq pixels n (by simp [hp]) (by omega)]
  obtain ⟨pq1, hpq1, hne1⟩ := iterLoop_ok_ne (keyCount (getHisto pixels))
    (getHisto pixels) (3 * (n : Int)) maxIter
    (PQueue.push ⟨[], false⟩ (vboxFromPixels pixels)) 1 (by simp [PQueue.push])
  rw [hpq1, except_ok_bind]
  have htne : (transferLoop (keyCount (getHisto pixels)) pq1.size pq1
      ⟨[], false⟩).contents ≠ [] := by
    have hlen := transferLoop_length (keyCount (getHisto pixels)) pq1.size pq1
      ⟨[], false⟩ (le_refl _)
    intro hnil
    rw [hnil] at hlen
    simp at hlen
    exact hne1 (List.length_eq_zero.mp hlen.symm)
  obtain ⟨pq2f, hpq2, hne2⟩ := iterLoop_ok_ne (keyCountVol (getHisto pixels))
    (getHisto pixels)
    (4 * ((n : Int) - ((transferLoop (keyCount (getHisto pixels)) pq1.size pq1
      ⟨[], false⟩).size : Int)))
    maxIter (transferLoop (keyCount (getHisto pixels)) pq1.size pq1 ⟨[], false⟩) 1 htne
  rw [hpq2, except_ok_bind]
  exact ⟨_, rfl⟩

theorem iterLoop_ok_preserves_ne (key : VBox → Int) (histo : Histo) (tgt4 : Int)
    (fuel : Nat) (q : PQueue VBox) (n : Nat) (q' : PQueue VBox)
    (h : iterLoop key histo tgt4 fuel q n = .ok q') (hq : q.contents ≠ []) :
    q'.contents ≠ [] := by
  obtain ⟨q'', h2, hne⟩ := iterLoop_ok_ne key histo tgt4 fuel q n hq
  rw [h] at h2
  injection h2 with h2
  rw [h2]
  exact hne

/-- C5.  quantize fails with EmptyInput exactly on the empty pixel
sequence, fails with InvalidArgument exactly on a non-empty sequence with
target outside [2, 256], and succeeds (producing a color map, with no
internal error) on every other input. -/
theorem quantize_error_spec (pixels : List Pixel) (n : Nat) :
    (quantize pixels n = .error .emptyInput ↔ pixels = []) ∧
    (quantize pixels n = .error .invalidArgument ↔
      pixels ≠ [] ∧ (n < 2 ∨ 256 < n)) ∧
    (pixels ≠ [] → 2 ≤ n → n ≤ 256 → ∃ cm, quantize pixels n = .ok cm) := by
  by_cases hp : pixels = []
  · have he : quantize pixels n = .error .emptyInput := by
      unfold quantize
      rw [if_pos (by simp [hp])]
    refine ⟨⟨fun _ => hp, fun _ => he⟩, ⟨fun h => ?_, fun h => absurd hp h.1⟩,
      fun h => absurd hp h⟩
    rw [he] at h
    simp at h
  · by_cases hn : n < 2 ∨ 256 < n
    · have he : quantize pixels n = .error .invalidArgument := by
        unfold quantize
        rw [if_neg (by simp [hp]), if_pos hn]
      refine ⟨⟨fun h => ?_, fun h => absurd h hp⟩,
        ⟨fun _ => ⟨hp, hn⟩, fun _ => he⟩, fun _ h2 h256 => by omega⟩
      rw [he] at h
      simp at h
    · push_neg at hn
      obtain ⟨cm, hok⟩ := quantize_ok_of_valid pixels n hp hn.1 hn.2
      refine ⟨⟨fun h => ?_, fun h => absurd h hp⟩,
        ⟨fun h => ?_, fun h => absurd h.2 (by omega)⟩,
        fun _ _ _ => ⟨cm, hok⟩⟩
      · rw [hok] at h
        simp at h
      · rw [hok] at h
        simp at h

/-- C5 witness: concrete instances of all three clauses. -/
theorem quantize_error_spec_witness :
    quantize [] 5 = .error .emptyInput ∧
    quantize [(1, 2, 3)] 257 = .error .invalidArgument ∧
    ∃ cm, quantize [(1, 2, 3)] 5 = .ok cm :=
  ⟨(quantize_error_spec [] 5).1.mpr rfl,
   (quantize_error_spec [(1, 2, 3)] 257).2.1.mpr ⟨by decide, by decide⟩,
   (quantize_error_spec [(1, 2, 3)] 5).2.2 (by decide) (by decide) (by decide)⟩

/-- C1 (amended).  A successful quantization returns a palette with at
least one entry, at most N + 1 entries, and at most N entries once
N ≥ 4; the N + 1 overshoot is possible only for N = 2 and N = 3, where
the phase-2 target is already met on entry but one split is still
performed. -/
theorem quantize_palette_size (pixels : List Pixel) (n : Nat) (cm : CMap)
    (h : quantize pixels n = .ok cm) :
    1 ≤ (CMap.palette cm).length ∧ (CMap.palette cm).length ≤ n + 1 ∧
    (4 ≤ n → (CMap.palette cm).length ≤ n) := by
  obtain ⟨hp, h2, h256, pq1, pq2f, hpq1, hpq2, hcm⟩ := quantize_ok_elim pixels n cm h
  have hlenpal : (CMap.palette cm).length = cm.vboxes.contents.length := by
    simp [CMap.palette]
  -- the drained map has exactly as many entries as the final queue
  have hdrain : cm.vboxes.contents.length = pq2f.contents.length := by
    rw [hcm, drainLoop_length (getHisto pixels) pq2f.size pq2f CMap.init (le_refl _)]
    simp [CMap.init]
  -- the final queue is nonempty
  have hne0 : (PQueue.push ⟨[], false⟩ (vboxFromPixels pixels)).contents ≠ [] := by
    simp [PQueue.push]
  have hne1 : pq1.contents ≠ [] :=
    iterLoop_ok_preserves_ne _ _ _ _ _ _ _ hpq1 hne0
  have htlen := transferLoop_length (keyCount (getHisto pixels)) pq1.size pq1
    ⟨[], false⟩ (le_refl _)
  have htne : (transferLoop (keyCount (getHisto pixels)) pq1.size pq1
      ⟨[], false⟩).contents ≠ [] := by
    intro hnil
    rw [hnil] at htlen
    simp at htlen
    exact hne1 (List.length_eq_zero.mp htlen.symm)
  have hne2 : pq2f.contents ≠ [] :=
    iterLoop_ok_preserves_ne _ _ _ _ _ _ _ hpq2 htne
  -- phase-1 size bound with m1 = ceil(3n/4)
  have hm1 : (3 * (n : Int)) ≤ 4 * (((3 * n + 3) / 4 : Nat) : Int) := by
    have : 3 * n ≤ 4 * ((3 * n + 3) / 4) := by omega
    exact_mod_cast this
  have hb1 := iterLoop_length_le (keyCount (getHisto pixels)) (getHisto pixels)
    (3 * (n : Int)) maxIter (PQueue.push ⟨[], false⟩ (vboxFromPixels pixels)) 1 pq1
    ((3 * n + 3) / 4) hpq1 (by omega) hm1
  rw [push_length] at hb1
  simp only [List.length_nil] at hb1
  -- phase-2 size bound with m2 = max (n - s) 1 where s is the transferred size
  have hslen : (transferLoop (keyCount (getHisto pixels)) pq1.size pq1
      ⟨[], false⟩).size = pq1.contents.length := by
    show (transferLoop (keyCount (getHisto pixels)) pq1.size pq1
      ⟨[], false⟩).contents.length = _
    rw [htlen]
    simp
  have hm2 : (4 * ((n : Int) - ((transferLoop (keyCount (getHisto pixels)) pq1.size pq1
      ⟨[], false⟩).size : Int)))
      ≤ 4 * (((max (n - (transferLoop (keyCount (getHisto pixels)) pq1.size pq1
        ⟨[], false⟩).size) 1 : Nat)) : Int) := by
    push_cast
    omega
  have hb2 := iterLoop_length_le (keyCountVol (getHisto pixels)) (getHisto pixels)
    (4 * ((n : Int) - ((transferLoop (keyCount (getHisto pixels)) pq1.size pq1
      ⟨[], false⟩).size : Int)))
    maxIter
    (transferLoop (keyCount (getHisto pixels)) pq1.size pq1 ⟨[], false⟩) 1 pq2f
    (max (n - (transferLoop (keyCount (getHisto pixels)) pq1.size pq1
      ⟨[], false⟩).size) 1) hpq2 (by omega) hm2
  have hpos : 1 ≤ pq2f.contents.length := by
    have := List.length_pos.mpr hne2
    omega
  have hslen2 : (transferLoop (keyCount (getHisto pixels)) pq1.size pq1
      ⟨[], false⟩).contents.length = pq1.contents.length := hslen
  rw [hlenpal, hdrain]
  rw [hslen] at hb2
  rw [hslen2] at hb2
  omega

/-- C1 witness: a concrete successful run (the 4-pixel input with N = 5). -/
theorem quantize_palette_size_witness :
    1 ≤ (CMap.palette (cmOf (quantize pix4 5))).length ∧
    (CMap.palette (cmOf (quantize pix4 5))).length ≤ 5 + 1 ∧
    (4 ≤ 5 → (CMap.palette (cmOf (quantize pix4 5))).length ≤ 5) :=
  quantize_palette_size pix4 5 (cmOf (quantize pix4 5)) (by rfl)

/-- C1 counterexample: with N = 2, the 4-pixel input produces a palette of
3 > N entries (the phase-2 target is zero yet one further split happens). -/
theorem quantize_palette_size_counterexample :
    (quantize pix4 2).toOption.map (fun cm => (CMap.palette cm).length)
      = some 3 ∧ ¬(3 ≤ 2) := by
  constructor
  · rfl
  · decide

/-- C6.  After a successful quantization, every input pixel is contained
in exactly one of the retained regions: splitting replaces a region by two
regions partitioning it, so the retained regions partition the initial
bounding region, which contains all input pixels. -/
theorem quantize_partition (pixels : List Pixel) (n : Nat) (cm : CMap)
    (p : Pixel) (h : quantize pixels n = .ok cm) (hp : p ∈ pixels) :
    cm.vboxes.contents.countP (fun e => e.1.contains p) = 1 := by
  obtain ⟨hpne, h2, h256, pq1, pq2f, hpq1, hpq2, hcm⟩ := quantize_ok_elim pixels n cm h
  have hdrain := drainLoop_countP (getHisto pixels) (fun v => v.contains p)
    pq2f.size pq2f CMap.init (le_refl _)
  have hphase2 := iterLoop_countP (keyCountVol (getHisto pixels)) (getHisto pixels)
    _ p maxIter _ 1 pq2f hpq2
  have htrans := transferLoop_countP (keyCount (getHisto pixels))
    (fun v => v.contains p) pq1.size pq1 ⟨[], false⟩ (le_refl _)
  have hphase1 := iterLoop_countP (keyCount (getHisto pixels)) (getHisto pixels)
    _ p maxIter _ 1 pq1 hpq1
  have hinit : (PQueue.push ⟨[], false⟩ (vboxFromPixels pixels)).contents.countP
      (fun v => v.contains p) = 1 := by
    simp [PQueue.push, List.countP_cons, vboxFromPixels_contains pixels p hp]
  rw [hcm, hdrain, hphase2, htrans, hphase1, hinit]
  simp [CMap.init]

/-- C6 witness: the 4-pixel run with N = 2, checked on the pixel (0,0,0). -/
theorem quantize_partition_witness :
    (cmOf (quantize pix4 2)).vboxes.contents.countP
      (fun e => e.1.contains (0, 0, 0)) = 1 :=
  quantize_partition pix4 2 (cmOf (quantize pix4 2)) (0, 0, 0) (by rfl)
    (by decide)

set_option maxRecDepth 8000 in
/-- C4 counterexample: the concrete run on 100 pixels (255,0,0) with N = 5
constructs (and even retains in the returned color map) four regions with
`r1 = 32 > 31 = r2`, violating both `r1 ≤ r2` and `r1 ≤ 2^SIGBITS - 1`. -/
theorem region_invariant_counterexample :
    (cmOf (quantize pix100 5)).vboxes.contents.countP
      (fun e => decide (e.1.r2 < e.1.r1)) = 4 ∧
    (cmOf (quantize pix100 5)).vboxes.contents.countP
      (fun e => decide (2 ^ SIGBITS - 1 < e.1.r1)) = 4 := by
  constructor <;> decide

/-- C4 (amended).  Every region reachable during a quantize call on a
non-empty 8-bit pixel sequence satisfies: each lower bound is at most its
upper bound + 1 (equality occurs for the degenerate empty child produced
when a region is cut at the very top of an axis), upper bounds lie in
[0, 2^SIGBITS - 1], and lower bounds lie in [0, 2^SIGBITS]. -/
theorem region_invariant (pixels : List Pixel) (hne : pixels ≠ [])
    (hval : ∀ p ∈ pixels, validPix p) (v : VBox)
    (hr : Reachable (getHisto pixels) (vboxFromPixels pixels) v) :
    v.r1 ≤ v.r2 + 1 ∧ v.r1 ≤ 2 ^ SIGBITS ∧ v.r2 ≤ 2 ^ SIGBITS - 1 ∧
    v.g1 ≤ v.g2 + 1 ∧ v.g1 ≤ 2 ^ SIGBITS ∧ v.g2 ≤ 2 ^ SIGBITS - 1 ∧
    v.b1 ≤ v.b2 + 1 ∧ v.b1 ≤ 2 ^ SIGBITS ∧ v.b2 ≤ 2 ^ SIGBITS - 1 := by
  have h0 := vboxFromPixels_inv pixels hne hval
  have hinv := reachable_inv (getHisto pixels) (vboxFromPixels pixels) h0 v hr
  obtain ⟨h1, h2, h3, h4, h5, h6, h7, h8, h9⟩ := hinv
  norm_num [SIGBITS]
  omega

/-- C4 witness: the initial region of a one-pixel input. -/
theorem region_invariant_witness :
    (vboxFromPixels [(0, 0, 0)]).r1 ≤ (vboxFromPixels [(0, 0, 0)]).r2 + 1 ∧
    (vboxFromPixels [(0, 0, 0)]).r1 ≤ 2 ^ SIGBITS ∧
    (vboxFromPixels [(0, 0, 0)]).r2 ≤ 2 ^ SIGBITS - 1 ∧
    (vboxFromPixels [(0, 0, 0)]).g1 ≤ (vboxFromPixels [(0, 0, 0)]).g2 + 1 ∧
    (vboxFromPixels [(0, 0, 0)]).g1 ≤ 2 ^ SIGBITS ∧
    (vboxFromPixels [(0, 0, 0)]).g2 ≤ 2 ^ SIGBITS - 1 ∧
    (vboxFromPixels [(0, 0, 0)]).b1 ≤ (vboxFromPixels [(0, 0, 0)]).b2 + 1 ∧
    (vboxFromPixels [(0, 0, 0)]).b1 ≤ 2 ^ SIGBITS ∧
    (vboxFromPixels [(0, 0, 0)]).b2 ≤ 2 ^ SIGBITS - 1 :=
  region_invariant [(0, 0, 0)] (by decide) (by simp [validPix]) _ Reachable.init

set_option maxRecDepth 8000 in
/-- C3 counterexample: in the concrete run on 100 pixels (255,0,0) with
N = 5, four retained degenerate regions have average color (256, 4, 4),
whose red channel 256 lies outside [0, 255]. -/
theorem avg_range_counterexample :
    (CMap.palette (cmOf (quantize pix100 5))).countP
      (fun c => decide (255 < c.1)) = 4 := by
  decide

/-- C3 (amended).  For every region reachable during a quantize call on a
non-empty 8-bit pixel sequence, every channel of the computed average
color is an integer in [0, 256]: the populated case floor(sum/total) is
even bounded by 252, while the degenerate geometric-midpoint case reaches
256 exactly on the empty children with lo = hi + 1 = 2^SIGBITS. -/
theorem avg_range (pixels : List Pixel) (hne : pixels ≠ [])
    (hval : ∀ p ∈ pixels, validPix p) (v : VBox)
    (hr : Reachable (getHisto pixels) (vboxFromPixels pixels) v) :
    (v.avg (getHisto pixels)).1 ≤ 256 ∧
    (v.avg (getHisto pixels)).2.1 ≤ 256 ∧
    (v.avg (getHisto pixels)).2.2 ≤ 256 := by
  have h0 := vboxFromPixels_inv pixels hne hval
  have hinv := reachable_inv (getHisto pixels) (vboxFromPixels pixels) h0 v hr
  exact avg_channels_le (getHisto pixels) v hinv

/-- C3 witness: the initial region of a one-pixel input. -/
theorem avg_range_witness :
    ((vboxFromPixels [(0, 0, 0)]).avg (getHisto [(0, 0, 0)])).1 ≤ 256 ∧
    ((vboxFromPixels [(0, 0, 0)]).avg (getHisto [(0, 0, 0)])).2.1 ≤ 256 ∧
    ((vboxFromPixels [(0, 0, 0)]).avg (getHisto [(0, 0, 0)])).2.2 ≤ 256 :=
  avg_range [(0, 0, 0)] (by decide) (by simp [validPix]) _ Reachable.init

set_option maxRecDepth 8000 in
/-- C2 counterexample: on 100 pixels (255,0,0) with N = 5 the palette has
five entries, not one. -/
theorem scenario_single_color_counterexample :
    (CMap.palette (cmOf (quantize pix100 5))).length = 5 ∧ ¬(5 = 1) := by
  constructor
  · rfl
  · decide

set_option maxRecDepth 8000 in
/-- C2 (amended).  On 100 pixels (255,0,0) with N = 5: the histogram has
exactly one bucket; quantize succeeds with a palette of five entries — the
integer-truncated centroid (252, 4, 4) of the single populated region
first, followed by four copies of (256, 4, 4) coming from degenerate empty
child regions — and the distribution fractions are [1, 0, 0, 0, 0]. -/
theorem scenario_single_color :
    (getHisto pix100).length = 1 ∧
    quantize pix100 5 = .ok (cmOf (quantize pix100 5)) ∧
    CMap.palette (cmOf (quantize pix100 5))
      = [(252, 4, 4), (256, 4, 4), (256, 4, 4), (256, 4, 4), (256, 4, 4)] ∧
    (CMap.paletteDistribution (getHisto pix100) (cmOf (quantize pix100 5))).map
      (fun e => e.2) = [1, 0, 0, 0, 0] := by
  refine ⟨by decide, by rfl, by decide, ?_⟩
  have hcont : (cmOf (quantize pix100 5)).vboxes.contents
      = [(⟨31, 31, 0, 0, 0, 0⟩, (252, 4, 4)),
         (⟨32, 31, 0, 0, 0, 0⟩, (256, 4, 4)),
         (⟨32, 31, 0, 0, 0, 0⟩, (256, 4, 4)),
         (⟨32, 31, 0, 0, 0, 0⟩, (256, 4, 4)),
         (⟨32, 31, 0, 0, 0, 0⟩, (256, 4, 4))] := by decide
  have hc1 : VBox.count (getHisto pix100) ⟨31, 31, 0, 0, 0, 0⟩ = 100 := by decide
  have hc0 : VBox.count (getHisto pix100) ⟨32, 31, 0, 0, 0, 0⟩ = 0 := by decide
  unfold CMap.paletteDistribution
  rw [hcont]
  simp only [List.map_cons, List.map_nil, List.sum_cons, List.sum_nil, hc1, hc0]
  norm_num

/-- C7.  For a region with at least two pixels handed to the splitter, the
cut axis is the one with the largest extent (r2-r1+1, g2-g1+1, b2-b1+1),
ties resolved by the fixed priority red > green > blue: red wins whenever
its extent is at least both others, green wins whenever its extent strictly
strictly exceeds the red extent and is at least the blue one, and blue wins only when its extent
strictly exceeds both. -/
theorem cut_axis_spec (histo : Histo) (v : VBox) (_h2 : 2 ≤ v.count histo) :
    (cutAxis v = .r ↔
      ((v.g2 : Int) - v.g1 + 1 ≤ (v.r2 : Int) - v.r1 + 1 ∧
       (v.b2 : Int) - v.b1 + 1 ≤ (v.r2 : Int) - v.r1 + 1)) ∧
    (cutAxis v = .g ↔
      ((v.r2 : Int) - v.r1 + 1 < (v.g2 : Int) - v.g1 + 1 ∧
       (v.b2 : Int) - v.b1 + 1 ≤ (v.g2 : Int) - v.g1 + 1)) ∧
    (cutAxis v = .b ↔
      ((v.r2 : Int) - v.r1 + 1 < (v.b2 : Int) - v.b1 + 1 ∧
       (v.g2 : Int) - v.g1 + 1 < (v.b2 : Int) - v.b1 + 1)) := by
  simp only [cutAxis]
  split_ifs with ha hb
  · exact ⟨⟨fun _ => by omega, fun _ => rfl⟩,
      ⟨fun hx => hx.elim, fun hx => by exfalso; omega⟩,
      ⟨fun hx => hx.elim, fun hx => by exfalso; omega⟩⟩
  · exact ⟨⟨fun hx => hx.elim, fun hx => by exfalso; omega⟩,
      ⟨fun _ => by omega, fun _ => rfl⟩,
      ⟨fun hx => hx.elim, fun hx => by exfalso; omega⟩⟩
  · exact ⟨⟨fun hx => hx.elim, fun hx => by exfalso; omega⟩,
      ⟨fun hx => hx.elim, fun hx => by exfalso; omega⟩,
      ⟨fun _ => by omega, fun _ => rfl⟩⟩

/-- C7 witness: the 4-pixel input, whose initial region is widest on red. -/
theorem cut_axis_spec_witness :
    cutAxis (vboxFromPixels pix4) = .r ∧
    2 ≤ VBox.count (getHisto pix4) (vboxFromPixels pix4) :=
  ⟨(cut_axis_spec (getHisto pix4) (vboxFromPixels pix4) (by decide)).1.mpr
    (by decide),
   by decide⟩

/-- C8.  Quantization is deterministic: the embedding is a pure function
of the pixel sequence and the target, so identical inputs yield identical
color maps, palettes and distributions; and the queue sort is stable, so
a list already in ascending key order (in particular, any block of tied
keys in insertion order) is left exactly as inserted. -/
theorem quantize_deterministic :
    (∀ (p1 p2 : List Pixel) (n1 n2 : Nat), p1 = p2 → n1 = n2 →
      quantize p1 n1 = quantize p2 n2 ∧
      (quantize p1 n1).map CMap.palette = (quantize p2 n2).map CMap.palette ∧
      (quantize p1 n1).map (CMap.paletteDistribution (getHisto p1))
        = (quantize p2 n2).map (CMap.paletteDistribution (getHisto p2))) ∧
    (∀ (key : VBox → Int) (l : List VBox),
      l.Pairwise (fun x y => key x ≤ key y) → stableSort key l = l) := by
  constructor
  · intro p1 p2 n1 n2 hp hn
    subst hp
    subst hn
    exact ⟨rfl, rfl, rfl⟩
  · intro key l h
    exact stableSort_eq_self key l h

/-- C8 witness: two runs on the same concrete input coincide. -/
theorem quantize_deterministic_witness :
    quantize pix4 2 = quantize pix4 2 ∧
    stableSort (fun v => (v.count (getHisto pix4) : Int))
      [vboxFromPixels pix4] = [vboxFromPixels pix4] :=
  ⟨(quantize_deterministic.1 pix4 pix4 2 2 rfl rfl).1,
   quantize_deterministic.2 _ [vboxFromPixels pix4] (by simp)⟩

/-- C10.  If every pixel is filtered out (alpha below the threshold, or
excluded as near-white/near-black), get_palette returns the one-element
list holding the default color (None when absent) and never invokes the
quantizer: the result is the same for every quantizer function. -/
theorem get_palette_all_filtered (pixels : List PixelA) (colorCount quality : Nat)
    (noWhite noBlack : Bool) (defaultColor : Option Pixel)
    (hempty : validPixels pixels quality noWhite noBlack = []) :
    ∀ quantizer : List Pixel → Nat → Except QErr CMap,
      getPaletteWith quantizer pixels colorCount quality noWhite noBlack
        defaultColor = .ok [defaultColor] := by
  intro quantizer
  unfold getPaletteWith
  rw [hempty]
  rfl

/-- C10 witness: a fully transparent one-pixel image with no default color
returns [none] under the real quantizer (and trivially under any other). -/
theorem get_palette_all_filtered_witness :
    getPaletteWith quantize [(10, 10, 10, 0)] 10 1 true true none
      = .ok [none] :=
  get_palette_all_filtered [(10, 10, 10, 0)] 10 1 true true none (by rfl) quantize

/-! ## C9: drain order and the lookup side effect -/

theorem pop_sortQ {α : Type} (key : α → Int) (q : PQueue α) :
    (q.sortQ key).pop key = q.pop key := by
  unfold PQueue.pop
  rw [sortQ_sortQ]

theorem drainLoop_sortQ (histo : Histo) (f : Nat) (src : PQueue VBox) (cm : CMap) :
    drainLoop histo (f + 1) src cm
      = drainLoop histo (f + 1) (src.sortQ (keyCountVol histo)) cm := by
  have hperm := sortQ_contents_perm (keyCountVol histo) src
  by_cases h : src.contents = []
  · have h2 : (src.sortQ (keyCountVol histo)).contents = [] := by
      rw [h] at hperm
      exact hperm.eq_nil
    rw [drainLoop, drainLoop, if_pos (by simp [h]), if_pos (by simp [h2])]
  · have h2 : (src.sortQ (keyCountVol histo)).contents ≠ [] := by
      intro hnil
      rw [hnil] at hperm
      exact h hperm.symm.eq_nil
    rw [drainLoop, drainLoop, if_neg (by simp [h]), if_neg (by simp [h2]),
      pop_sortQ]

theorem drainLoop_sorted_foldl (histo : Histo) :
    ∀ (fuel : Nat) (l : List VBox) (cm : CMap), l.length ≤ fuel →
      drainLoop histo fuel ⟨l, true⟩ cm
        = l.reverse.foldl (fun c v => c.push histo v) cm := by
  intro fuel
  induction fuel with
  | zero =>
    intro l cm hf
    have : l = [] := by
      cases h : l with
      | nil => rfl
      | cons a t => rw [h] at hf; simp at hf
    rw [this]
    rfl
  | succ fuel ih =>
    intro l cm hf
    by_cases h : l = []
    · rw [h]
      rw [drainLoop, if_pos (by simp)]
      rfl
    · rw [drainLoop, if_neg (by simp [h])]
      have hpop : PQueue.pop (keyCountVol histo) ⟨l, true⟩
          = (l.getLast? , ⟨l.dropLast, true⟩) := by
        unfold PQueue.pop PQueue.sortQ
        rw [if_pos rfl]
      rw [hpop]
      rw [List.getLast?_eq_getLast l h]
      dsimp only
      rw [ih l.dropLast (cm.push histo (l.getLast h))
        (by have := List.length_dropLast l; have := List.length_pos.mpr h; omega)]
      have hrev : l.reverse = l.getLast h :: l.dropLast.reverse := by
        conv_lhs => rw [← List.dropLast_append_getLast h]
        rw [List.reverse_append]
        rfl
      rw [hrev]
      rfl

theorem foldl_cmap_push_contents (histo : Histo) :
    ∀ (l : List VBox) (cm : CMap),
      (l.foldl (fun c v => c.push histo v) cm).vboxes.contents
        = cm.vboxes.contents ++ l.map (fun v => (v, v.avg histo)) := by
  intro l
  induction l with
  | nil =>
    intro cm
    simp
  | cons a t ih =>
    intro cm
    simp only [List.foldl_cons, List.map_cons]
    rw [ih (cm.push histo a), cmap_push_contents]
    simp

theorem foldl_cmap_push_isSorted (histo : Histo) :
    ∀ (l : List VBox) (cm : CMap), l ≠ [] →
      (l.foldl (fun c v => c.push histo v) cm).vboxes.isSorted = false := by
  intro l
  induction l with
  | nil =>
    intro cm h
    exact absurd rfl h
  | cons a t ih =>
    intro cm h
    simp only [List.foldl_cons]
    by_cases ht : t = []
    · rw [ht]
      rfl
    · exact ih (cm.push histo a) ht

/-- The color map returned by a successful quantization: the staleness flag
is down (every push marked it stale), and the stored entries are in
descending count-times-volume order (the drain pops maxima first). -/
theorem quantize_cmap_descending (pixels : List Pixel) (n : Nat) (cm : CMap)
    (h : quantize pixels n = .ok cm) :
    cm.vboxes.isSorted = false ∧
    cm.vboxes.contents.Pairwise
      (fun e1 e2 => cmapKey (getHisto pixels) e2 ≤ cmapKey (getHisto pixels) e1) := by
  obtain ⟨hp, h2, h256, pq1, pq2f, hpq1, hpq2, hcm⟩ := quantize_ok_elim pixels n cm h
  -- the final queue is nonempty and stale
  have hne0 : (PQueue.push ⟨[], false⟩ (vboxFromPixels pixels)).contents ≠ [] := by
    simp [PQueue.push]
  have hne1 : pq1.contents ≠ [] :=
    iterLoop_ok_preserves_ne _ _ _ _ _ _ _ hpq1 hne0
  have htlen := transferLoop_length (keyCount (getHisto pixels)) pq1.size pq1
    ⟨[], false⟩ (le_refl _)
  have htne : (transferLoop (keyCount (getHisto pixels)) pq1.size pq1
      ⟨[], false⟩).contents ≠ [] := by
    intro hnil
    rw [hnil] at htlen
    simp at htlen
    exact hne1 (List.length_eq_zero.mp htlen.symm)
  have hne2 : pq2f.contents ≠ [] :=
    iterLoop_ok_preserves_ne _ _ _ _ _ _ _ hpq2 htne
  have hsorted2 : pq2f.isSorted = false := by
    refine iterLoop_isSorted _ _ _ _ _ _ _ hpq2 ?_
    exact transferLoop_isSorted _ _ _ _ rfl
  -- rewrite the drain as a fold over the reverse of the sorted contents
  have hsize1 : 1 ≤ pq2f.size := by
    have := List.length_pos.mpr hne2
    exact this
  obtain ⟨f, hf⟩ : ∃ f, pq2f.size = f + 1 := ⟨pq2f.size - 1, by omega⟩
  have hsortq : pq2f.sortQ (keyCountVol (getHisto pixels))
      = ⟨stableSort (keyCountVol (getHisto pixels)) pq2f.contents, true⟩ := by
    unfold PQueue.sortQ
    rw [hsorted2]
    rfl
  have hlen2 : (stableSort (keyCountVol (getHisto pixels)) pq2f.contents).length
      = pq2f.contents.length := stableSort_length _ _
  have hdrain : cm = (stableSort (keyCountVol (getHisto pixels))
      pq2f.contents).reverse.foldl
        (fun c v => c.push (getHisto pixels) v) CMap.init := by
    rw [hcm, hf, drainLoop_sortQ, hsortq, drainLoop_sorted_foldl]
    show (stableSort (keyCountVol (getHisto pixels)) pq2f.contents).length ≤ f + 1
    rw [hlen2]
    show pq2f.contents.length ≤ f + 1
    rw [← hf]
    exact le_refl _
  have hrevne : (stableSort (keyCountVol (getHisto pixels))
      pq2f.contents).reverse ≠ [] := by
    intro hnil
    have := congrArg List.length hnil
    simp [hlen2] at this
    exact hne2 this
  constructor
  · rw [hdrain]
    exact foldl_cmap_push_isSorted _ _ _ hrevne
  · rw [hdrain, foldl_cmap_push_contents]
    simp only [CMap.init, List.nil_append]
    have hpw := stableSort_pairwise (keyCountVol (getHisto pixels)) pq2f.contents
    have hpwrev : (stableSort (keyCountVol (getHisto pixels))
        pq2f.contents).reverse.Pairwise
          (fun x y => keyCountVol (getHisto pixels) y
            ≤ keyCountVol (getHisto pixels) x) :=
      List.pairwise_reverse.mpr hpw
    exact hpwrev.map _ (fun a b hab => hab)

theorem cmap_map_resorts (histo : Histo) (cm : CMap) (c : Pixel)
    (hs : cm.vboxes.isSorted = false) (hne : cm.vboxes.contents ≠ []) :
    (CMap.map histo cm c).2.vboxes.contents
      = stableSort (cmapKey histo) cm.vboxes.contents ∧
    (CMap.map histo cm c).2.vboxes.isSorted = true := by
  unfold CMap.map
  rw [if_neg (by simp [hne])]
  have hq : cm.vboxes.sortQ (cmapKey histo)
      = ⟨stableSort (cmapKey histo) cm.vboxes.contents, true⟩ := by
    unfold PQueue.sortQ
    rw [hs]
    rfl
  rw [hq]
  dsimp only
  rcases hfind : (stableSort (cmapKey histo) cm.vboxes.contents).find?
      (fun e => e.1.contains c) with _ | e <;>
    rw [hfind] <;> exact ⟨rfl, rfl⟩

/-- C9.  A lookup (CMap.map, falling back to CMap.nearest) re-sorts the
queue of the CMap ascending by count * volume and leaves it marked sorted, so a
palette() read after any lookup sees the colors in ascending count * volume
order; the freshly drained color map of a successful quantize is instead
stored stale and in descending count * volume order.  On a concrete run
the palette read before and after a lookup differ, so lookup has an
observable side effect on palette order. -/
theorem lookup_reorders_palette :
    (∀ (histo : Histo) (cm : CMap) (c : Pixel),
      cm.vboxes.isSorted = false → cm.vboxes.contents ≠ [] →
        (CMap.map histo cm c).2.vboxes.contents
            = stableSort (cmapKey histo) cm.vboxes.contents ∧
        (CMap.map histo cm c).2.vboxes.isSorted = true ∧
        (CMap.map histo cm c).2.vboxes.contents.Pairwise
          (fun e1 e2 => cmapKey histo e1 ≤ cmapKey histo e2)) ∧
    (∀ (pixels : List Pixel) (n : Nat) (cm : CMap), quantize pixels n = .ok cm →
      cm.vboxes.isSorted = false ∧
      cm.vboxes.contents.Pairwise
        (fun e1 e2 => cmapKey (getHisto pixels) e2 ≤ cmapKey (getHisto pixels) e1)) ∧
    (CMap.palette (cmOf (quantize pix4 2)) = [(252, 4, 4), (8, 4, 4), (256, 4, 4)] ∧
     CMap.palette ((CMap.map (getHisto pix4) (cmOf (quantize pix4 2)) (0, 0, 0)).2)
       = [(256, 4, 4), (8, 4, 4), (252, 4, 4)] ∧
     CMap.palette ((CMap.map (getHisto pix4) (cmOf (quantize pix4 2)) (0, 0, 0)).2)
       ≠ CMap.palette (cmOf (quantize pix4 2))) := by
  refine ⟨?_, ?_, by decide, by decide, by decide⟩
  · intro histo cm c hs hne
    obtain ⟨h1, h2⟩ := cmap_map_resorts histo cm c hs hne
    refine ⟨h1, h2, ?_⟩
    rw [h1]
    exact stableSort_pairwise _ _
  · intro pixels n cm h
    exact quantize_cmap_descending pixels n cm h

/-- C9 witness: the concrete pix4 run instantiates both universally
quantified clauses. -/
theorem lookup_reorders_palette_witness :
    (CMap.map (getHisto pix4) (cmOf (quantize pix4 2)) (0, 0, 0)).2.vboxes.isSorted
      = true ∧
    (cmOf (quantize pix4 2)).vboxes.isSorted = false :=
  ⟨(lookup_reorders_palette.1 (getHisto pix4) (cmOf (quantize pix4 2)) (0, 0, 0)
      (by rfl) (by decide)).2.1,
   (lookup_reorders_palette.2.1 pix4 2 (cmOf (quantize pix4 2)) (by rfl)).1⟩
